import Mathlib

/-!
Verification of the case-tokenization / case-conversion core of
`case_checker.py` (module `src/case_checker.py` of RepoCleaner).

The Python functions `extract_words`, `convert_case`, the built-in pattern
registry `CASE_PATTERNS`, and the `Convention` methods `get_pattern`,
`check` and `get_suggested_name` are embedded below as executable Lean
definitions.  Python exceptions (`ValueError` from the tokenizer, the
`IndexError` that `w[0]` and `words[0]` can raise) are modelled with an
`Except` monad; a Python function that falls off its end returns `none`
(Python's `None`).

Scope of the model:

* Identifier strings are modelled over their character lists.  The regex
  character classes of the source (`[a-zA-Z]`, `[a-z0-9]`, `[A-Z]`, ...)
  are pure ASCII code-point ranges and are embedded exactly.  Python's
  `str.lower`, `str.capitalize` and the `\b` word boundary are
  Unicode-aware; they are embedded by their ASCII case maps, on which the
  two coincide for every string the checked conventions accept (all four
  built-in patterns only admit ASCII names).
* The `Convention` instance is the one the specification's examples use: a
  convention document with no `naming.case` overrides, so `get_pattern`
  always answers from the built-in `CASE_PATTERNS` table.  The four
  built-in regexes are embedded twice: as strict whole-string Boolean
  matchers (`kebabS`, `snakeS`, `camelS`, `pascalS`), and — composed with
  the trailing-newline allowance of Python's `$` anchor, which also
  matches just before one newline that ends the string — as the
  `re.match` acceptance tests the program actually runs (`kebabM`,
  `snakeM`, `camelM`, `pascalM`); the latter are what `CASE_PATTERNS`
  holds.
* The network / cache / YAML plumbing of the class (`_fetch_from_github`,
  `_load`, `refresh`) is out of scope, as are the `check_repository`,
  `check_directory` and `check_language` wrappers: no claim touches them.
-/

/-- Python exceptions reachable in the modelled core: `ValueError` (raised
by `extract_words` with its message) and `IndexError` (raised by `w[0]` on
an empty string and by `words[0]` on an empty list). -/
inductive PyErr where
  | valueError (msg : String)
  | indexError
  deriving DecidableEq, Repr

/-- Result of running a piece of Python: a value, or a propagated exception. -/
abbrev Py (α : Type) := Except PyErr α

instance {α : Type} [DecidableEq α] : DecidableEq (Py α) := fun a b =>
  match a, b with
  | .ok x, .ok y =>
    if h : x = y then .isTrue (by rw [h]) else .isFalse (by simp [h])
  | .ok _, .error _ => .isFalse (by simp)
  | .error _, .ok _ => .isFalse (by simp)
  | .error e, .error f =>
    if h : e = f then .isTrue (by rw [h]) else .isFalse (by simp [h])

/-- Separator characters of the tokenizer: hyphen and underscore
(the class `[-_]` and the strip set `'-_'` of the source). -/
def isSep (c : Char) : Bool := c = '-' || c = '_'

/-- The regex class `[a-z0-9]`. -/
def isLowerDigit (c : Char) : Bool := c.isLower || c.isDigit

/-- The regex word-character class `\w` (over ASCII): letters, digits and
underscore.  `\b` holds between a word character and a non-word character
(or the edge of the string). -/
def isWordChar (c : Char) : Bool := c.isAlpha || c.isDigit || c = '_'

/-- Python `name.strip('-_')`: drop leading and trailing separator
characters. -/
def stripSeps (l : List Char) : List Char :=
  ((l.dropWhile isSep).reverse.dropWhile isSep).reverse

/-- Python `re.split` over a one-character class (the source's
`re.split(r'[-_]', name)` with `p := isSep`): every single character
satisfying `p` is a split point, so consecutive separators produce empty
segments.  The result always has one more segment than there are
separator characters. -/
def splitOnPred (p : Char → Bool) : List Char → List (List Char)
  | [] => [[]]
  | c :: cs =>
    if p c then [] :: splitOnPred p cs
    else
      match splitOnPred p cs with
      | w :: ws => (c :: w) :: ws
      | [] => [[c]]

/-- State of the left-to-right scan embedding
`re.findall(r'[A-Z]?[a-z0-9]+|[A-Z]+(?=[A-Z][a-z]|\b)', name)`:
either between matches (`start`), inside a first-alternative chunk
(`word`, accumulated reversed), or inside a pending run of uppercase
letters (`run u us`, the run reversed with `u` the most recent letter). -/
inductive ScanSt where
  | start
  | word (rev : List Char)
  | run (u : Char) (us : List Char)
  deriving Repr

/-- One left-to-right pass of the source's
`re.findall(r'[A-Z]?[a-z0-9]+|[A-Z]+(?=[A-Z][a-z]|\b)', name)`.

Derivation from the regex semantics (checked against CPython's `re`):
at each position the first alternative `[A-Z]?[a-z0-9]+` is tried first,
greedily: an optional capital followed by a maximal nonempty run of
`[a-z0-9]` (the `word` state).  Where it cannot match, the second
alternative takes a maximal run of `k` capitals `U1..Uk` and needs its
lookahead to hold after backtracking: since the characters inside the run
are word characters, only `j = k` (when the character after the run is a
non-word character or the string ends: the `\b` branch) or `j = k - 1`
(when it is a lowercase letter: the `[A-Z][a-z]` branch, emitting
`U1..U(k-1)` and re-scanning from `Uk`) can succeed.  When the run is
followed by a digit or an underscore both branches fail and `findall`
advances one character at a time, dropping `U1..U(k-1)` and matching
`Uk` + digits by the first alternative (digit) or dropping the whole run
(underscore). -/
def scanGo : ScanSt → List Char → List (List Char)
  | .start, [] => []
  | .word w, [] => [w.reverse]
  | .run u us, [] => [(u :: us).reverse]
  | .start, c :: cs =>
    if c.isUpper then scanGo (.run c []) cs
    else if isLowerDigit c then scanGo (.word [c]) cs
    else scanGo .start cs
  | .word w, c :: cs =>
    if isLowerDigit c then scanGo (.word (c :: w)) cs
    else if c.isUpper then w.reverse :: scanGo (.run c []) cs
    else w.reverse :: scanGo .start cs
  | .run u us, c :: cs =>
    if c.isUpper then scanGo (.run c (u :: us)) cs
    else if c.isLower then
      match us with
      | [] => scanGo (.word [c, u]) cs
      | _ :: _ => us.reverse :: scanGo (.word [c, u]) cs
    else if c.isDigit then scanGo (.word [c, u]) cs
    else if c = '_' then scanGo .start cs
    else (u :: us).reverse :: scanGo .start cs

/-- `re.findall(r'[A-Z]?[a-z0-9]+|[A-Z]+(?=[A-Z][a-z]|\b)', name)`. -/
def scanFind (l : List Char) : List (List Char) := scanGo .start l

/-- The `ValueError` message of `extract_words`. -/
def letterErrMsg (name : String) : String :=
  "Name must contain at least one letter: '" ++ name ++ "'"

/-- Source `extract_words(name)` (case_checker.py lines 21-36): require at
least one ASCII letter, strip leading/trailing `-`/`_`, then either split
on single separator characters (delimiter path) or decompose by the
capital-aware `findall` (compound path), lowercasing every word; if the
`findall` finds nothing, fall back to the whole stripped name lowercased. -/
def extract_words (name : String) : Py (List String) :=
  if name.data.any Char.isAlpha then
    let stripped := stripSeps name.data
    if stripped.any isSep then
      .ok ((splitOnPred isSep stripped).map (fun w => (⟨w.map Char.toLower⟩ : String)))
    else
      match scanFind stripped with
      | [] => .ok [(⟨stripped.map Char.toLower⟩ : String)]
      | w :: ws => .ok ((w :: ws).map (fun w => (⟨w.map Char.toLower⟩ : String)))
  else .error (.valueError (letterErrMsg name))

/-- Python `str.capitalize()`: first character uppercased, the rest
lowercased. -/
def pyCapitalize (w : List Char) : List Char :=
  match w with
  | [] => []
  | c :: cs => c.toUpper :: cs.map Char.toLower

/-- Python `[w[0] for w in words]`, left to right: the first character of
each word, raising `IndexError` at the first empty word. -/
def firstChars : List String → Py (List Char)
  | [] => .ok []
  | w :: ws =>
    match w.data with
    | [] => .error .indexError
    | c :: _ => (firstChars ws).map (fun cs => c :: cs)

/-- Python `sep.join(words)`. -/
def joinSep (sep : Char) (words : List String) : List Char :=
  List.intercalate [sep] (words.map String.data)

/-- Spec-side description of the collapse step (the "initialism" of the
specification): the first character of each word, in order.  Stated with
`head?` so it is total; on words that are all nonempty it coincides with
the source's `''.join(w[0] for w in words)`. -/
def initialism (words : List String) : List Char :=
  words.filterMap (fun w => w.data.head?)

/-- The per-style joining/capitalization rules: the four-way `if` chain at
the end of `convert_case` (case_checker.py lines 58-65), applied to a word
list as it stands after the merge step.  An unmatched style falls off the
end of the Python function, returning `None`. -/
def renderStyle (target_case : String) (words : List String) : Py (Option String) :=
  if target_case = "kebab-case" then .ok (some ⟨joinSep '-' words⟩)
  else if target_case = "snake_case" then .ok (some ⟨joinSep '_' words⟩)
  else if target_case = "camelCase" then
    match words with
    | [] => .error .indexError
    | w :: rest => .ok (some ⟨w.data ++ (rest.map (fun r => pyCapitalize r.data)).flatten⟩)
  else if target_case = "PascalCase" then
    .ok (some ⟨(words.map (fun r => pyCapitalize r.data)).flatten⟩)
  else .ok none

/-- The dynamically typed first argument of `convert_case`: a string name
or a list of pre-extracted words. -/
inductive NameOrWords where
  | name (s : String)
  | words (ws : List String)

/-- Source `convert_case(name_or_words, target_case)` (case_checker.py
lines 39-65): extract words if a string was given; if more than 3 words,
collapse them to the single word made of each word's first character
(`[''.join(w[0] for w in words)]`); then apply the target style's rule. -/
def convert_case (x : NameOrWords) (target_case : String) : Py (Option String) := do
  let ws ←
    match x with
    | .name s => extract_words s
    | .words ws => pure ws
  let ws ←
    if ws.length > 3 then (firstChars ws).map (fun cs => [(⟨cs⟩ : String)])
    else pure ws
  renderStyle target_case ws

/-- Source `CASE_STYLES`. -/
def CASE_STYLES : List String :=
  ["kebab-case", "snake_case", "camelCase", "PascalCase"]

/-- The newline character, the one character Python's `$` anchor can
look past at the end of a string. -/
def nl : Char := Char.ofNat 10

/-- Python `re.match` acceptance of an anchored `^X$` pattern whose body
`X` cannot match a newline (true of all four built-in patterns): without
`re.MULTILINE`, `$` matches at the very end of the string and also just
before a newline that terminates the string, so the match succeeds
exactly when `X` matches the whole string or the whole string minus one
trailing newline. -/
def pyDollar (core : String → Bool) (s : String) : Bool :=
  core s || (decide (s.data.getLast? = some nl) && core (⟨s.data.dropLast⟩ : String))

/-- The body of the built-in regex `^[a-z0-9]+(-[a-z0-9]+)*$` as a strict
whole-string matcher: one or more `[a-z0-9]` groups joined by single
hyphens; equivalently every hyphen-separated segment is nonempty and made
of `[a-z0-9]`. -/
def kebabS (s : String) : Bool :=
  (splitOnPred (fun c => c = '-') s.data).all
    (fun seg => !seg.isEmpty && seg.all isLowerDigit)

/-- The body of the built-in regex `^[a-z][a-z0-9_]*$` as a strict
whole-string matcher. -/
def snakeS (s : String) : Bool :=
  match s.data with
  | [] => false
  | c :: cs => c.isLower && cs.all (fun d => isLowerDigit d || d = '_')

/-- The body of the built-in regex `^[a-z][a-zA-Z0-9]*$` as a strict
whole-string matcher. -/
def camelS (s : String) : Bool :=
  match s.data with
  | [] => false
  | c :: cs => c.isLower && cs.all Char.isAlphanum

/-- The body of the built-in regex `^[A-Z][a-zA-Z0-9]*$` as a strict
whole-string matcher. -/
def pascalS (s : String) : Bool :=
  match s.data with
  | [] => false
  | c :: cs => c.isUpper && cs.all Char.isAlphanum

/-- What `re.match(r'^[a-z0-9]+(-[a-z0-9]+)*$', s)` actually accepts:
the strict kebab shape, or that shape followed by one newline. -/
def kebabM : String → Bool := pyDollar kebabS

/-- What `re.match(r'^[a-z][a-z0-9_]*$', s)` actually accepts. -/
def snakeM : String → Bool := pyDollar snakeS

/-- What `re.match(r'^[a-z][a-zA-Z0-9]*$', s)` actually accepts. -/
def camelM : String → Bool := pyDollar camelS

/-- What `re.match(r'^[A-Z][a-zA-Z0-9]*$', s)` actually accepts. -/
def pascalM : String → Bool := pyDollar pascalS

/-- Source `CASE_PATTERNS` (case_checker.py lines 73-78), each anchored
regex embedded as its `re.match` acceptance test: the strict whole-string
matcher composed with the trailing-newline allowance of `$`. -/
def CASE_PATTERNS : List (String × (String → Bool)) :=
  [("kebab-case", kebabM), ("snake_case", snakeM),
   ("camelCase", camelM), ("PascalCase", pascalM)]

/-- Source `Convention.get_pattern` for the no-override convention
document used throughout (`self.cases` is empty, so the built-in
`CASE_PATTERNS` always answers). -/
def get_pattern (case_name : String) : Option (String → Bool) :=
  CASE_PATTERNS.lookup case_name

/-- Source `Convention.check(name, case_name)` (case_checker.py lines
174-205) over the no-override convention document: unknown style gives a
single issue; a pattern match (in `re.match` semantics, so a trailing
newline is forgiven by `$`) gives `[]`; otherwise the
mismatch issue, then either the too-many-segments issue (more than 3
words) or, when the suggestion differs from the name, the suggestion
issue (a `None` suggestion would be rendered `'None'` by the f-string). -/
def check (name case_name : String) : Py (List String) :=
  match get_pattern case_name with
  | none => .ok ["Unknown case style: " ++ case_name]
  | some pat =>
    if pat name then .ok []
    else do
      let ws ← extract_words name
      if ws.length > 3 then
        .ok ["Does not match " ++ case_name,
             "Too many segments (>3) - needs manual review"]
      else do
        let sugg ← convert_case (.words ws) case_name
        match sugg with
        | some s =>
          if s = name then .ok ["Does not match " ++ case_name]
          else .ok ["Does not match " ++ case_name, "Suggested: '" ++ s ++ "'"]
        | none => .ok ["Does not match " ++ case_name, "Suggested: 'None'"]

/-- Source `Convention.get_suggested_name(name, case_name)` (case_checker.py
lines 243-245): `convert_case(name, case_name)` on the string name. -/
def get_suggested_name (name case_name : String) : Py (Option String) :=
  convert_case (.name name) case_name

/-- No two adjacent characters are both uppercase letters (the shape of
camel/Pascal names without acronym runs). -/
def adjFree : List Char → Bool
  | c :: d :: t => (!(c.isUpper && d.isUpper)) && adjFree (d :: t)
  | _ => true

/-! ## Character-level lemmas -/

theorem char_toNat_ofNat_valid {n : Nat} (h : n.isValidChar) :
    (Char.ofNat n).toNat = n := by
  simp only [Char.ofNat, dif_pos h, Char.ofNatAux, Char.toNat]
  simp [UInt32.toNat]

theorem char_eq_of_toNat_eq {c d : Char} (h : c.toNat = d.toNat) : c = d :=
  Char.ext (UInt32.toNat.inj h)

theorem isUpper_iff {c : Char} : c.isUpper = true ↔ 65 ≤ c.toNat ∧ c.toNat ≤ 90 := by
  simp [Char.isUpper, Char.toNat, UInt32.le_def, BitVec.le_def, UInt32.toNat]

theorem isLower_iff {c : Char} : c.isLower = true ↔ 97 ≤ c.toNat ∧ c.toNat ≤ 122 := by
  simp [Char.isLower, Char.toNat, UInt32.le_def, BitVec.le_def, UInt32.toNat]

theorem isDigit_iff {c : Char} : c.isDigit = true ↔ 48 ≤ c.toNat ∧ c.toNat ≤ 57 := by
  simp [Char.isDigit, Char.toNat, UInt32.le_def, BitVec.le_def, UInt32.toNat]

theorem toLower_toNat_of_upper {c : Char} (h : c.isUpper = true) :
    (c.toLower).toNat = c.toNat + 32 := by
  rw [isUpper_iff] at h
  rw [Char.toLower, if_pos (by omega), char_toNat_ofNat_valid (Or.inl (by omega))]

theorem toLower_eq_self_of_not_upper {c : Char} (h : ¬ (65 ≤ c.toNat ∧ c.toNat ≤ 90)) :
    c.toLower = c := by
  rw [Char.toLower, if_neg (by omega)]

theorem toUpper_toNat_of_lower {c : Char} (h : c.isLower = true) :
    (c.toUpper).toNat = c.toNat - 32 := by
  rw [isLower_iff] at h
  rw [Char.toUpper, if_pos (by omega), char_toNat_ofNat_valid (Or.inl (by omega))]

theorem toUpper_eq_self_of_not_lower {c : Char} (h : ¬ (97 ≤ c.toNat ∧ c.toNat ≤ 122)) :
    c.toUpper = c := by
  rw [Char.toUpper, if_neg (by omega)]

/-- Lowercasing a `[a-z0-9]` character does nothing. -/
theorem toLower_of_lowerDigit {c : Char} (h : isLowerDigit c = true) : c.toLower = c := by
  rcases Bool.or_eq_true_iff.mp h with h | h
  · rw [isLower_iff] at h; exact toLower_eq_self_of_not_upper (by omega)
  · rw [isDigit_iff] at h; exact toLower_eq_self_of_not_upper (by omega)

/-- Uppercasing then lowercasing a lowercase letter is the identity. -/
theorem toLower_toUpper_of_lower {c : Char} (h : c.isLower = true) :
    (c.toUpper).toLower = c := by
  have h2 := toUpper_toNat_of_lower h
  rw [isLower_iff] at h
  apply char_eq_of_toNat_eq
  rw [toLower_toNat_of_upper (by rw [isUpper_iff]; omega)]
  omega

/-- Lowercasing then uppercasing an uppercase letter is the identity. -/
theorem toUpper_toLower_of_upper {c : Char} (h : c.isUpper = true) :
    (c.toLower).toUpper = c := by
  have h2 := toLower_toNat_of_upper h
  rw [isUpper_iff] at h
  apply char_eq_of_toNat_eq
  rw [toUpper_toNat_of_lower (by rw [isLower_iff]; omega)]
  omega

theorem isUpper_toUpper_of_lower {c : Char} (h : c.isLower = true) :
    (c.toUpper).isUpper = true := by
  have h2 := toUpper_toNat_of_lower h
  rw [isLower_iff] at h
  rw [isUpper_iff]
  omega

/-- The ASCII classes `[A-Z]` and `[a-z0-9]` are disjoint. -/
theorem not_lowerDigit_of_upper {c : Char} (h : c.isUpper = true) :
    isLowerDigit c = false := by
  rw [isUpper_iff] at h
  rw [isLowerDigit]
  simp only [Bool.or_eq_false_iff]
  constructor
  · rw [Bool.eq_false_iff, Ne, isLower_iff]; omega
  · rw [Bool.eq_false_iff, Ne, isDigit_iff]; omega

/-- `[a-zA-Z0-9]` splits as `[A-Z]` next to `[a-z0-9]`. -/
theorem isAlphanum_eq_upper_or_lowerDigit (c : Char) :
    c.isAlphanum = (c.isUpper || isLowerDigit c) := by
  rw [Char.isAlphanum, Char.isAlpha, isLowerDigit, Bool.or_assoc]

/-- An alphanumeric character is not a separator. -/
theorem not_sep_of_alphanum {c : Char} (h : c.isAlphanum = true) : isSep c = false := by
  rw [isAlphanum_eq_upper_or_lowerDigit, Bool.or_eq_true_iff] at h
  rw [isSep]
  have hn : c.toNat ≠ 45 ∧ c.toNat ≠ 95 := by
    rcases h with h | h
    · rw [isUpper_iff] at h; omega
    · rcases Bool.or_eq_true_iff.mp h with h | h
      · rw [isLower_iff] at h; omega
      · rw [isDigit_iff] at h; omega
  simp only [Bool.or_eq_false_iff]
  constructor
  · rw [decide_eq_false_iff_not]
    intro hc; apply hn.1; rw [hc]; rfl
  · rw [decide_eq_false_iff_not]
    intro hc; apply hn.2; rw [hc]; rfl

theorem lowerDigit_of_alphanum_not_upper {c : Char} (h : c.isAlphanum = true)
    (h2 : c.isUpper = false) : isLowerDigit c = true := by
  rw [isAlphanum_eq_upper_or_lowerDigit, h2, Bool.false_or] at h
  exact h

theorem isLowerDigit_of_lower {c : Char} (h : c.isLower = true) : isLowerDigit c = true := by
  rw [isLowerDigit, h, Bool.true_or]

theorem isLowerDigit_of_digit {c : Char} (h : c.isDigit = true) : isLowerDigit c = true := by
  rw [isLowerDigit, h, Bool.or_true]

/-! ## Lemmas about `splitOnPred`, `List.intercalate` and `stripSeps` -/

theorem splitOnPred_ne_nil (p : Char → Bool) (l : List Char) : splitOnPred p l ≠ [] := by
  cases l with
  | nil => simp [splitOnPred]
  | cons c cs =>
    rw [splitOnPred]
    by_cases h : p c
    · simp [h]
    · simp only [h]
      cases splitOnPred p cs <;> simp

theorem splitOnPred_cons_pos {p : Char → Bool} {c : Char} (cs : List Char)
    (h : p c = true) : splitOnPred p (c :: cs) = [] :: splitOnPred p cs := by
  rw [splitOnPred, if_pos h]

theorem splitOnPred_cons_neg {p : Char → Bool} {c : Char} {cs w : List Char}
    {ws : List (List Char)} (h : p c = false) (hs : splitOnPred p cs = w :: ws) :
    splitOnPred p (c :: cs) = (c :: w) :: ws := by
  rw [splitOnPred, if_neg (by simp [h]), hs]

theorem length_splitOnPred (p : Char → Bool) (l : List Char) :
    (splitOnPred p l).length = l.countP p + 1 := by
  induction l with
  | nil => simp [splitOnPred]
  | cons c cs ih =>
    rw [List.countP_cons]
    by_cases h : p c
    · rw [splitOnPred_cons_pos cs h]
      simp only [h, if_true, List.length_cons]
      omega
    · rcases hs : splitOnPred p cs with _ | ⟨w, ws⟩
      · exact absurd hs (splitOnPred_ne_nil p cs)
      · rw [splitOnPred_cons_neg (by simpa using h) hs]
        rw [hs] at ih
        have h' : p c = false := by simpa using h
        simp only [List.length_cons] at ih ⊢
        simp only [h', Bool.false_eq_true, if_false]
        omega

theorem intercalate_nil_chars (sep : List Char) : List.intercalate sep [] = [] := rfl

theorem intercalate_single_chars (sep : List Char) (x : List Char) :
    List.intercalate sep [x] = x := by
  simp [List.intercalate, List.intersperse]

theorem intercalate_cons_chars (sep : List Char) (x y : List Char) (t : List (List Char)) :
    List.intercalate sep (x :: y :: t) = x ++ sep ++ List.intercalate sep (y :: t) := by
  simp [List.intercalate, List.intersperse_cons₂, List.append_assoc]

/-- Joining the segments of `splitOnPred p` with `sep` restores the list,
provided every split character was `sep`. -/
theorem intercalate_splitOnPred {p : Char → Bool} {sep : Char} :
    ∀ l : List Char, (∀ c ∈ l, p c = true → c = sep) →
      List.intercalate [sep] (splitOnPred p l) = l := by
  intro l
  induction l with
  | nil => intro _; rfl
  | cons c cs ih =>
    intro h
    rcases hs : splitOnPred p cs with _ | ⟨w, ws⟩
    · exact absurd hs (splitOnPred_ne_nil p cs)
    have ihcs := ih (fun d hd hpd => h d (List.mem_cons_of_mem c hd) hpd)
    rw [hs] at ihcs
    by_cases hc : p c
    · rw [splitOnPred_cons_pos cs hc, hs]
      rw [intercalate_cons_chars, List.nil_append]
      rw [List.singleton_append, ihcs, h c (List.mem_cons_self c cs) hc]
    · rw [splitOnPred_cons_neg (by simpa using hc) hs]
      cases ws with
      | nil =>
        rw [intercalate_single_chars] at ihcs ⊢
        rw [ihcs]
      | cons w2 ws2 =>
        rw [intercalate_cons_chars] at ihcs ⊢
        simp only [List.cons_append, List.append_assoc] at ihcs ⊢
        rw [ihcs]

/-- Splitting a `sep`-join of separator-free words restores the words. -/
theorem splitOnPred_intercalate {p : Char → Bool} {sep : Char} (hsep : p sep = true) :
    ∀ ws : List (List Char), ws ≠ [] → (∀ w ∈ ws, ∀ c ∈ w, p c = false) →
      splitOnPred p (List.intercalate [sep] ws) = ws := by
  have single : ∀ w : List Char, (∀ c ∈ w, p c = false) →
      ∀ rest, splitOnPred p (w ++ sep :: rest) = w :: splitOnPred p rest := by
    intro w
    induction w with
    | nil =>
      intro _ rest
      rw [List.nil_append, splitOnPred_cons_pos rest hsep]
    | cons c cs ih =>
      intro hw rest
      have hc : p c = false := hw c (List.mem_cons_self c cs)
      rw [List.cons_append]
      rw [splitOnPred_cons_neg hc (ih (fun d hd => hw d (List.mem_cons_of_mem c hd)) rest)]
  have singleEnd : ∀ w : List Char, (∀ c ∈ w, p c = false) →
      splitOnPred p w = [w] := by
    intro w
    induction w with
    | nil => intro _; rfl
    | cons c cs ih =>
      intro hw
      have hc : p c = false := hw c (List.mem_cons_self c cs)
      rw [splitOnPred_cons_neg hc (ih (fun d hd => hw d (List.mem_cons_of_mem c hd)))]
  intro ws
  induction ws with
  | nil => intro h _; exact absurd rfl h
  | cons w t ih =>
    intro _ hall
    cases t with
    | nil =>
      rw [intercalate_single_chars]
      exact singleEnd w (hall w (List.mem_cons_self w []))
    | cons w2 t2 =>
      rw [intercalate_cons_chars]
      rw [List.append_assoc, List.singleton_append]
      rw [single w (hall w (List.mem_cons_self w _)) _]
      rw [ih (by simp) (fun v hv => hall v (List.mem_cons_of_mem w hv))]

/-- Two predicates that agree on the characters of `l` split it alike. -/
theorem splitOnPred_congr {p q : Char → Bool} :
    ∀ l : List Char, (∀ c ∈ l, p c = q c) → splitOnPred p l = splitOnPred q l := by
  intro l
  induction l with
  | nil => intro _; rfl
  | cons c cs ih =>
    intro h
    have hc : p c = q c := h c (List.mem_cons_self c cs)
    have ht := ih (fun d hd => h d (List.mem_cons_of_mem c hd))
    rw [splitOnPred, splitOnPred, hc, ht]

/-- Characters inside a segment come from the list and are not split
characters. -/
theorem mem_splitOnPred {p : Char → Bool} :
    ∀ l : List Char, ∀ w ∈ splitOnPred p l, ∀ c ∈ w, c ∈ l ∧ p c = false := by
  intro l
  induction l with
  | nil =>
    intro w hw c hc
    simp only [splitOnPred, List.mem_singleton] at hw
    subst hw
    exact absurd hc (List.not_mem_nil c)
  | cons a as ih =>
    intro w hw c hc
    by_cases ha : p a
    · rw [splitOnPred_cons_pos as ha, List.mem_cons] at hw
      rcases hw with rfl | hw
      · exact absurd hc (List.not_mem_nil c)
      · have := ih w hw c hc
        exact ⟨List.mem_cons_of_mem a this.1, this.2⟩
    · rcases hs : splitOnPred p as with _ | ⟨v, vs⟩
      · exact absurd hs (splitOnPred_ne_nil p as)
      · rw [splitOnPred_cons_neg (by simpa using ha) hs, List.mem_cons] at hw
        rcases hw with rfl | hw
        · rcases List.mem_cons.mp hc with rfl | hc
          · exact ⟨List.mem_cons_self c as, by simpa using ha⟩
          · have := ih v (by rw [hs]; exact List.mem_cons_self v vs) c hc
            exact ⟨List.mem_cons_of_mem a this.1, this.2⟩
        · have := ih w (by rw [hs]; exact List.mem_cons_of_mem v hw) c hc
          exact ⟨List.mem_cons_of_mem a this.1, this.2⟩

theorem dropWhile_eq_self_of_head {α : Type} {p : α → Bool} {l : List α}
    (h : ∀ c, l.head? = some c → p c = false) : l.dropWhile p = l := by
  cases l with
  | nil => rfl
  | cons c cs =>
    rw [List.dropWhile_cons_of_neg]
    simp [h c rfl]

theorem takeWhile_eq_self_of_all {α : Type} {p : α → Bool} {l : List α}
    (h : ∀ a ∈ l, p a = true) : l.takeWhile p = l := by
  induction l with
  | nil => rfl
  | cons c cs ih =>
    rw [List.takeWhile_cons_of_pos (h c (List.mem_cons_self c cs))]
    rw [ih (fun a ha => h a (List.mem_cons_of_mem c ha))]

theorem dropWhile_eq_nil_of_all {α : Type} {p : α → Bool} {l : List α}
    (h : ∀ a ∈ l, p a = true) : l.dropWhile p = [] := by
  induction l with
  | nil => rfl
  | cons c cs ih =>
    rw [List.dropWhile_cons_of_pos (h c (List.mem_cons_self c cs))]
    exact ih (fun a ha => h a (List.mem_cons_of_mem c ha))

theorem stripSeps_eq_self {l : List Char}
    (h1 : ∀ c, l.head? = some c → isSep c = false)
    (h2 : ∀ c, l.getLast? = some c → isSep c = false) : stripSeps l = l := by
  rw [stripSeps, dropWhile_eq_self_of_head h1]
  rw [dropWhile_eq_self_of_head (by intro c hc; rw [List.head?_reverse] at hc; exact h2 c hc)]
  exact List.reverse_reverse l

/-! ## Lemmas about the `findall` scan -/

theorem not_upper_of_lowerDigit {c : Char} (h : isLowerDigit c = true) :
    c.isUpper = false := by
  rcases Bool.or_eq_true_iff.mp h with h | h
  · rw [isLower_iff] at h
    rw [Bool.eq_false_iff, Ne, isUpper_iff]; omega
  · rw [isDigit_iff] at h
    rw [Bool.eq_false_iff, Ne, isUpper_iff]; omega

theorem adjFree_cons {c : Char} {t : List Char} (h : adjFree (c :: t) = true) :
    adjFree t = true := by
  cases t with
  | nil => rfl
  | cons d t' =>
    rw [adjFree, Bool.and_eq_true] at h
    exact h.2

theorem adjFree_cons₂ {c d : Char} {t : List Char} (h : adjFree (c :: d :: t) = true) :
    (c.isUpper = true → d.isUpper = false) ∧ adjFree (d :: t) = true := by
  rw [adjFree, Bool.and_eq_true] at h
  refine ⟨?_, h.2⟩
  intro hc
  have h1 := h.1
  rw [hc] at h1
  simpa using h1

theorem head_dropWhile_false {α : Type} {p : α → Bool} {l : List α} {v : α} {r : List α}
    (h : l.dropWhile p = v :: r) : p v = false := by
  induction l with
  | nil => simp at h
  | cons c cs ih =>
    by_cases hc : p c
    · rw [List.dropWhile_cons_of_pos hc] at h
      exact ih h
    · rw [List.dropWhile_cons_of_neg hc] at h
      cases h
      simpa using hc

theorem adjFree_dropWhile {p : Char → Bool} :
    ∀ {l : List Char}, adjFree l = true → adjFree (l.dropWhile p) = true := by
  intro l
  induction l with
  | nil => intro _; rfl
  | cons c cs ih =>
    intro h
    by_cases hc : p c
    · rw [List.dropWhile_cons_of_pos hc]
      exact ih (adjFree_cons h)
    · rw [List.dropWhile_cons_of_neg hc]
      exact h

theorem map_toLower_of_lowerDigit {w : List Char}
    (h : ∀ c ∈ w, isLowerDigit c = true) : w.map Char.toLower = w := by
  induction w with
  | nil => rfl
  | cons c cs ih =>
    rw [List.map_cons, toLower_of_lowerDigit (h c (List.mem_cons_self c cs))]
    rw [ih (fun a ha => h a (List.mem_cons_of_mem c ha))]

/-- In the `word` state the scan extends the chunk over the maximal
`[a-z0-9]` run and closes it at the following character. -/
theorem scanGo_word_eq :
    ∀ (t rev : List Char), (∀ c ∈ t, c.isAlphanum = true) →
      scanGo (.word rev) t =
        (rev.reverse ++ t.takeWhile isLowerDigit)
          :: scanGo .start (t.dropWhile isLowerDigit) := by
  intro t
  induction t with
  | nil =>
    intro rev _
    simp [scanGo]
  | cons c cs ih =>
    intro rev halnum
    by_cases hc : isLowerDigit c = true
    · have h1 : scanGo (.word rev) (c :: cs) = scanGo (.word (c :: rev)) cs := by
        simp [scanGo, hc]
      rw [h1, ih (c :: rev) (fun a ha => halnum a (List.mem_cons_of_mem c ha))]
      rw [List.takeWhile_cons_of_pos hc, List.dropWhile_cons_of_pos hc]
      rw [List.reverse_cons, List.append_assoc, List.singleton_append]
    · have hcu : c.isUpper = true := by
        have := halnum c (List.mem_cons_self c cs)
        rw [isAlphanum_eq_upper_or_lowerDigit, Bool.or_eq_true_iff] at this
        rcases this with h | h
        · exact h
        · exact absurd h hc
      have h1 : scanGo (.word rev) (c :: cs) = rev.reverse :: scanGo (.run c []) cs := by
        simp [scanGo, hc, hcu]
      have h2 : scanGo ScanSt.start (c :: cs) = scanGo (.run c []) cs := by
        simp [scanGo, hcu]
      rw [h1, List.takeWhile_cons_of_neg (by simp [hc]), List.dropWhile_cons_of_neg (by simp [hc])]
      rw [h2, List.append_nil]

/-- From a pending single capital, a following `[a-z0-9]` character starts a
first-alternative chunk holding both. -/
theorem scanGo_run_step {u d : Char} (cs : List Char) (hd : isLowerDigit d = true) :
    scanGo (.run u []) (d :: cs) = scanGo (.word [d, u]) cs := by
  have hdu : d.isUpper = false := not_upper_of_lowerDigit hd
  rcases Bool.or_eq_true_iff.mp hd with h | h
  · simp [scanGo, hdu, h]
  · have hdl : d.isLower = false := by
      rw [isDigit_iff] at h
      rw [Bool.eq_false_iff, Ne, isLower_iff]; omega
    simp [scanGo, hdu, hdl, h]

/-- Rebuilding lemma for the capital-led part of a camel/Pascal name with no
two adjacent capitals: capitalizing each lowercased chunk of the scan and
concatenating restores the text. -/
theorem scan_upper_rebuild :
    ∀ (n : Nat) (l : List Char), l.length ≤ n →
      (∀ c ∈ l, c.isAlphanum = true) → adjFree l = true →
      ∀ u t, l = u :: t → u.isUpper = true →
      ((scanGo .start l).map (fun w => pyCapitalize (w.map Char.toLower))).flatten = l
        ∧ scanGo .start l ≠ [] := by
  intro n
  induction n with
  | zero =>
    intro l hl _ _ u t hlut _
    subst hlut
    simp at hl
  | succ n ih =>
    intro l hl halnum hadj u t hlut hu
    subst hlut
    have hstart : scanGo ScanSt.start (u :: t) = scanGo (.run u []) t := by
      simp [scanGo, hu]
    cases t with
    | nil =>
      rw [hstart]
      have : scanGo (ScanSt.run u []) [] = [[u]] := by simp [scanGo]
      rw [this]
      constructor
      · simp [pyCapitalize, toUpper_toLower_of_upper hu]
      · simp
    | cons d t' =>
      have hd_alnum : d.isAlphanum = true :=
        halnum d (List.mem_cons_of_mem u (List.mem_cons_self d t'))
      have hdu : d.isUpper = false := (adjFree_cons₂ hadj).1 hu
      have hdld : isLowerDigit d = true := lowerDigit_of_alphanum_not_upper hd_alnum hdu
      have halnum' : ∀ c ∈ t', c.isAlphanum = true := fun c hc =>
        halnum c (List.mem_cons_of_mem u (List.mem_cons_of_mem d hc))
      rw [hstart, scanGo_run_step t' hdld, scanGo_word_eq t' [d, u] halnum']
      have hrev : ([d, u] : List Char).reverse = [u, d] := rfl
      rw [hrev]
      have hx_ld : ∀ c ∈ t'.takeWhile isLowerDigit, isLowerDigit c = true := by
        intro c hc
        have := List.all_takeWhile (l := t') (p := isLowerDigit)
        rw [List.all_eq_true] at this
        exact this c hc
      have hdx : ∀ c ∈ d :: t'.takeWhile isLowerDigit, isLowerDigit c = true := by
        intro c hc
        rcases List.mem_cons.mp hc with rfl | hc
        · exact hdld
        · exact hx_ld c hc
      have hchunk :
          pyCapitalize (Char.toLower u :: Char.toLower d ::
              (t'.takeWhile isLowerDigit).map Char.toLower)
            = u :: d :: t'.takeWhile isLowerDigit := by
        rw [toLower_of_lowerDigit hdld, map_toLower_of_lowerDigit hx_ld]
        have h1 : pyCapitalize (Char.toLower u :: d :: t'.takeWhile isLowerDigit)
            = (Char.toLower u).toUpper
                :: (d :: t'.takeWhile isLowerDigit).map Char.toLower := rfl
        rw [h1, toUpper_toLower_of_upper hu, map_toLower_of_lowerDigit hdx]
      rcases hrc : t'.dropWhile isLowerDigit with _ | ⟨v, r''⟩
      · have ht' : t'.takeWhile isLowerDigit = t' := by
          have := List.takeWhile_append_dropWhile (p := isLowerDigit) (l := t')
          rw [hrc, List.append_nil] at this
          exact this
        constructor
        · simp only [List.map_cons, List.flatten_cons, scanGo, List.map_nil,
            List.flatten_nil, List.append_nil, List.cons_append, List.nil_append]
          rw [hchunk, ht']
        · simp
      · have hv_notld : isLowerDigit v = false := head_dropWhile_false hrc
        have hsub := List.dropWhile_sublist (l := t') isLowerDigit
        rw [hrc] at hsub
        have hv_alnum : v.isAlphanum = true :=
          halnum' v (hsub.subset (List.mem_cons_self v r''))
        have hv_upper : v.isUpper = true := by
          rw [isAlphanum_eq_upper_or_lowerDigit, Bool.or_eq_true_iff] at hv_alnum
          rcases hv_alnum with h | h
          · exact h
          · rw [hv_notld] at h; exact absurd h (by simp)
        have hr_alnum : ∀ c ∈ v :: r'', c.isAlphanum = true := fun c hc =>
          halnum' c (hsub.subset hc)
        have hr_adj : adjFree (v :: r'') = true := by
          have h1 : adjFree t' = true := adjFree_cons (adjFree_cons hadj)
          have := adjFree_dropWhile (p := isLowerDigit) h1
          rw [hrc] at this
          exact this
        have hr_len : (v :: r'').length ≤ n := by
          have h1 := hsub.length_le
          simp only [List.length_cons] at hl h1 ⊢
          omega
        rcases ih (v :: r'') hr_len hr_alnum hr_adj v r'' rfl hv_upper with ⟨ihflat, _⟩
        constructor
        · simp only [List.map_cons, List.flatten_cons, List.cons_append, List.nil_append]
          rw [hchunk, ihflat]
          have ht' : t'.takeWhile isLowerDigit ++ v :: r'' = t' := by
            have := List.takeWhile_append_dropWhile (p := isLowerDigit) (l := t')
            rw [hrc] at this
            exact this
          rw [List.cons_append, List.cons_append, ht']
        · simp

theorem alnum_of_lowerDigit {c : Char} (h : isLowerDigit c = true) :
    c.isAlphanum = true := by
  rw [isAlphanum_eq_upper_or_lowerDigit, h, Bool.or_true]

theorem alnum_of_upper {c : Char} (h : c.isUpper = true) : c.isAlphanum = true := by
  rw [isAlphanum_eq_upper_or_lowerDigit, h, Bool.true_or]

/-- From the start state, a `[a-z0-9]` character opens a chunk spanning the
maximal `[a-z0-9]` run. -/
theorem scanGo_start_ld {c : Char} {cs : List Char} (hc : isLowerDigit c = true)
    (halnum : ∀ a ∈ cs, a.isAlphanum = true) :
    scanGo .start (c :: cs) =
      (c :: cs.takeWhile isLowerDigit) :: scanGo .start (cs.dropWhile isLowerDigit) := by
  have hcu : c.isUpper = false := not_upper_of_lowerDigit hc
  have h1 : scanGo ScanSt.start (c :: cs) = scanGo (.word [c]) cs := by
    simp [scanGo, hcu, hc]
  rw [h1, scanGo_word_eq cs [c] halnum]
  rfl

/-- A nonempty all-`[a-z0-9]` text scans as a single chunk. -/
theorem scanFind_all_ld {l : List Char} (hne : l ≠ [])
    (hld : ∀ c ∈ l, isLowerDigit c = true) : scanFind l = [l] := by
  cases l with
  | nil => exact absurd rfl hne
  | cons c cs =>
    rw [scanFind, scanGo_start_ld (hld c (List.mem_cons_self c cs))
      (fun a ha => alnum_of_lowerDigit (hld a (List.mem_cons_of_mem c ha)))]
    rw [takeWhile_eq_self_of_all (fun a ha => hld a (List.mem_cons_of_mem c ha))]
    rw [dropWhile_eq_nil_of_all (fun a ha => hld a (List.mem_cons_of_mem c ha))]
    rfl

/-- Rebuilding lemma for a camel-shaped text (lowercase lead, no two
adjacent capitals): the first scan chunk is lowercase/digits and the
capitalized remaining chunks concatenate back to the original text. -/
theorem camel_rebuild {c : Char} {cs : List Char} (hc : c.isLower = true)
    (halnum : ∀ a ∈ cs, a.isAlphanum = true) (hadj : adjFree (c :: cs) = true) :
    ∃ w ws, scanFind (c :: cs) = w :: ws ∧ w.map Char.toLower = w ∧
      w ++ ((ws.map (fun v => pyCapitalize (v.map Char.toLower))).flatten) = c :: cs := by
  rw [scanFind, scanGo_start_ld (isLowerDigit_of_lower hc) halnum]
  refine ⟨c :: cs.takeWhile isLowerDigit, scanGo .start (cs.dropWhile isLowerDigit),
    rfl, ?_, ?_⟩
  · have : ∀ a ∈ c :: cs.takeWhile isLowerDigit, isLowerDigit a = true := by
      intro a ha
      rcases List.mem_cons.mp ha with rfl | ha
      · exact isLowerDigit_of_lower hc
      · have := List.all_takeWhile (l := cs) (p := isLowerDigit)
        rw [List.all_eq_true] at this
        exact this a ha
    exact map_toLower_of_lowerDigit this
  · rcases hrc : cs.dropWhile isLowerDigit with _ | ⟨v, r''⟩
    · have htk : cs.takeWhile isLowerDigit = cs := by
        have := List.takeWhile_append_dropWhile (p := isLowerDigit) (l := cs)
        rw [hrc, List.append_nil] at this
        exact this
      have h0 : scanGo ScanSt.start [] = [] := rfl
      rw [h0]
      simp [htk]
    · have hv_notld : isLowerDigit v = false := head_dropWhile_false hrc
      have hsub := List.dropWhile_sublist (l := cs) isLowerDigit
      rw [hrc] at hsub
      have hv_upper : v.isUpper = true := by
        have hva := halnum v (hsub.subset (List.mem_cons_self v r''))
        rw [isAlphanum_eq_upper_or_lowerDigit, Bool.or_eq_true_iff] at hva
        rcases hva with h | h
        · exact h
        · rw [hv_notld] at h; exact absurd h (by simp)
      have hr_alnum : ∀ a ∈ v :: r'', a.isAlphanum = true := fun a ha =>
        halnum a (hsub.subset ha)
      have hr_adj : adjFree (v :: r'') = true := by
        have := adjFree_dropWhile (p := isLowerDigit) (adjFree_cons hadj)
        rw [hrc] at this
        exact this
      rcases scan_upper_rebuild (v :: r'').length (v :: r'') le_rfl hr_alnum hr_adj
        v r'' rfl hv_upper with ⟨ihflat, _⟩
      rw [ihflat]
      have := List.takeWhile_append_dropWhile (p := isLowerDigit) (l := cs)
      rw [hrc] at this
      rw [List.cons_append, this]

/-- Rebuilding lemma for a Pascal-shaped text. -/
theorem pascal_rebuild {u : Char} {t : List Char} (hu : u.isUpper = true)
    (halnum : ∀ a ∈ t, a.isAlphanum = true) (hadj : adjFree (u :: t) = true) :
    scanFind (u :: t) ≠ [] ∧
      (((scanFind (u :: t)).map (fun v => pyCapitalize (v.map Char.toLower))).flatten)
        = u :: t := by
  have halnum' : ∀ a ∈ u :: t, a.isAlphanum = true := by
    intro a ha
    rcases List.mem_cons.mp ha with rfl | ha
    · exact alnum_of_upper hu
    · exact halnum a ha
  rcases scan_upper_rebuild (u :: t).length (u :: t) le_rfl halnum' hadj u t rfl hu
    with ⟨hflat, hne⟩
  exact ⟨hne, hflat⟩

/-! ## Unfolding helpers for `extract_words`, `convert_case` and `check` -/

theorem extract_words_compound {name : String}
    (ha : name.data.any Char.isAlpha = true)
    (hnosep : (stripSeps name.data).any isSep = false)
    {w : List Char} {ws : List (List Char)}
    (hscan : scanFind (stripSeps name.data) = w :: ws) :
    extract_words name
      = .ok ((w :: ws).map (fun v => (⟨v.map Char.toLower⟩ : String))) := by
  rw [extract_words, if_pos ha]
  simp only [hnosep, Bool.false_eq_true, if_false, hscan]

theorem extract_words_split {name : String}
    (ha : name.data.any Char.isAlpha = true)
    (hsep : (stripSeps name.data).any isSep = true) :
    extract_words name
      = .ok ((splitOnPred isSep (stripSeps name.data)).map
          (fun v => (⟨v.map Char.toLower⟩ : String))) := by
  rw [extract_words, if_pos ha]
  simp only [hsep, if_true]

theorem extract_words_err {name : String} (ha : name.data.any Char.isAlpha = false) :
    extract_words name = .error (.valueError (letterErrMsg name)) := by
  rw [extract_words, if_neg (by simp [ha])]

/-- A successful tokenization never yields the empty word list. -/
theorem extract_words_ne_nil {name : String} {ws : List String}
    (h : extract_words name = .ok ws) : ws ≠ [] := by
  rw [extract_words] at h
  by_cases ha : name.data.any Char.isAlpha = true
  · rw [if_pos ha] at h
    simp only at h
    by_cases hs : (stripSeps name.data).any isSep = true
    · rw [if_pos hs] at h
      cases h
      intro hc
      rw [List.map_eq_nil_iff] at hc
      exact splitOnPred_ne_nil isSep (stripSeps name.data) hc
    · rw [if_neg hs] at h
      rcases hscan : scanFind (stripSeps name.data) with _ | ⟨w, ws'⟩
      · rw [hscan] at h
        cases h
        simp
      · rw [hscan] at h
        cases h
        simp
  · rw [if_neg ha] at h
    cases h

theorem firstChars_ok {ws : List String} (h : ∀ w ∈ ws, w.data ≠ []) :
    firstChars ws = .ok (ws.filterMap (fun w => w.data.head?)) := by
  induction ws with
  | nil => rfl
  | cons w t ih =>
    rcases hw : w.data with _ | ⟨c, cs⟩
    · exact absurd hw (h w (List.mem_cons_self w t))
    · rw [firstChars, hw, ih (fun v hv => h v (List.mem_cons_of_mem w hv))]
      simp only [List.filterMap_cons, hw, List.head?_cons, Except.map]

theorem convert_case_words_small {ws : List String} {tc : String} (h : ¬ ws.length > 3) :
    convert_case (.words ws) tc = renderStyle tc ws := by
  have h0 : convert_case (.words ws) tc
      = if ws.length > 3
        then Except.bind (Except.map (fun cs => [(⟨cs⟩ : String)]) (firstChars ws)) (renderStyle tc)
        else Except.bind (pure ws) (renderStyle tc) := rfl
  rw [h0, if_neg h]
  rfl

theorem convert_case_words_merge {ws : List String} {tc : String} {cs : List Char}
    (h : ws.length > 3) (hfc : firstChars ws = .ok cs) :
    convert_case (.words ws) tc = renderStyle tc [(⟨cs⟩ : String)] := by
  have h0 : convert_case (.words ws) tc
      = if ws.length > 3
        then Except.bind (Except.map (fun cs => [(⟨cs⟩ : String)]) (firstChars ws)) (renderStyle tc)
        else Except.bind (pure ws) (renderStyle tc) := rfl
  rw [h0, if_pos h, hfc]
  rfl

theorem convert_case_name_eq {name : String} {ws : List String} {tc : String}
    (h : extract_words name = .ok ws) :
    convert_case (.name name) tc = convert_case (.words ws) tc := by
  have h0 : convert_case (.name name) tc
      = (extract_words name).bind (fun ws =>
          if ws.length > 3
          then Except.bind (Except.map (fun cs => [(⟨cs⟩ : String)]) (firstChars ws)) (renderStyle tc)
          else Except.bind (pure ws) (renderStyle tc)) := rfl
  rw [h0, h]
  rfl

theorem renderStyle_kebab (ws : List String) :
    renderStyle "kebab-case" ws = .ok (some ⟨joinSep '-' ws⟩) := rfl

theorem renderStyle_snake (ws : List String) :
    renderStyle "snake_case" ws = .ok (some ⟨joinSep '_' ws⟩) := rfl

theorem renderStyle_camel (w : String) (rest : List String) :
    renderStyle "camelCase" (w :: rest)
      = .ok (some ⟨w.data ++ (rest.map (fun r => pyCapitalize r.data)).flatten⟩) := rfl

theorem renderStyle_pascal (ws : List String) :
    renderStyle "PascalCase" ws
      = .ok (some ⟨(ws.map (fun r => pyCapitalize r.data)).flatten⟩) := rfl

theorem get_pattern_cases {cn : String} {pat : String → Bool}
    (h : get_pattern cn = some pat) :
    (cn = "kebab-case" ∧ pat = kebabM) ∨ (cn = "snake_case" ∧ pat = snakeM)
      ∨ (cn = "camelCase" ∧ pat = camelM) ∨ (cn = "PascalCase" ∧ pat = pascalM) := by
  simp only [get_pattern, CASE_PATTERNS, List.lookup] at h
  by_cases h1 : cn = "kebab-case"
  · rw [beq_iff_eq.mpr h1] at h
    cases h
    exact Or.inl ⟨h1, rfl⟩
  · rw [beq_eq_false_iff_ne.mpr h1] at h
    by_cases h2 : cn = "snake_case"
    · rw [beq_iff_eq.mpr h2] at h
      cases h
      exact Or.inr (Or.inl ⟨h2, rfl⟩)
    · rw [beq_eq_false_iff_ne.mpr h2] at h
      by_cases h3 : cn = "camelCase"
      · rw [beq_iff_eq.mpr h3] at h
        cases h
        exact Or.inr (Or.inr (Or.inl ⟨h3, rfl⟩))
      · rw [beq_eq_false_iff_ne.mpr h3] at h
        by_cases h4 : cn = "PascalCase"
        · rw [beq_iff_eq.mpr h4] at h
          cases h
          exact Or.inr (Or.inr (Or.inr ⟨h4, rfl⟩))
        · rw [beq_eq_false_iff_ne.mpr h4] at h
          cases h

theorem mem_of_head?_eq_some {α : Type} {l : List α} {a : α} (h : l.head? = some a) :
    a ∈ l := by
  cases l with
  | nil => cases h
  | cons c cs =>
    cases h
    exact List.mem_cons_self a cs

theorem stripSeps_eq_self_of_all {l : List Char} (h : ∀ c ∈ l, isSep c = false) :
    stripSeps l = l :=
  stripSeps_eq_self (fun c hc => h c (mem_of_head?_eq_some hc))
    (fun c hc => h c (List.mem_of_getLast?_eq_some hc))

/-- If the whole list is free of split characters, it is its own single
segment. -/
theorem splitOnPred_eq_single {p : Char → Bool} {l : List Char}
    (h : ∀ c ∈ l, p c = false) : splitOnPred p l = [l] := by
  induction l with
  | nil => rfl
  | cons c cs ih =>
    rw [splitOnPred_cons_neg (h c (List.mem_cons_self c cs))
      (ih (fun a ha => h a (List.mem_cons_of_mem c ha)))]

/-- Conversely, a one-segment split means the list had no split characters. -/
theorem splitOnPred_single {p : Char → Bool} :
    ∀ {l w : List Char}, splitOnPred p l = [w] → l = w := by
  intro l
  induction l with
  | nil =>
    intro w h
    simp only [splitOnPred] at h
    cases h
    rfl
  | cons c cs ih =>
    intro w h
    by_cases hc : p c
    · rw [splitOnPred_cons_pos cs hc] at h
      injection h with h1 h2
      exact absurd h2 (splitOnPred_ne_nil p cs)
    · rcases hs : splitOnPred p cs with _ | ⟨v, vs⟩
      · exact absurd hs (splitOnPred_ne_nil p cs)
      · rw [splitOnPred_cons_neg (by simpa using hc) hs] at h
        injection h with h1 h2
        subst h2
        rw [ih hs, h1]

/-- Every character of the list is a split character or lands in some
segment. -/
theorem chars_of_splitOnPred {p : Char → Bool} :
    ∀ {l : List Char}, ∀ c ∈ l, p c = true ∨ ∃ w ∈ splitOnPred p l, c ∈ w := by
  intro l
  induction l with
  | nil => intro c hc; exact absurd hc (List.not_mem_nil c)
  | cons a as ih =>
    intro c hc
    by_cases ha : p a
    · rcases List.mem_cons.mp hc with rfl | hc
      · exact Or.inl ha
      · rcases ih c hc with h | ⟨w, hw, hcw⟩
        · exact Or.inl h
        · refine Or.inr ⟨w, ?_, hcw⟩
          rw [splitOnPred_cons_pos as ha]
          exact List.mem_cons_of_mem [] hw
    · rcases hs : splitOnPred p as with _ | ⟨v, vs⟩
      · exact absurd hs (splitOnPred_ne_nil p as)
      · rcases List.mem_cons.mp hc with rfl | hc
        · refine Or.inr ⟨c :: v, ?_, List.mem_cons_self c v⟩
          rw [splitOnPred_cons_neg (by simpa using ha) hs]
          exact List.mem_cons_self (c :: v) vs
        · rcases ih c hc with h | ⟨w, hw, hcw⟩
          · exact Or.inl h
          · rw [hs, List.mem_cons] at hw
            rcases hw with rfl | hw
            · refine Or.inr ⟨a :: w, ?_, List.mem_cons_of_mem a hcw⟩
              rw [splitOnPred_cons_neg (by simpa using ha) hs]
              exact List.mem_cons_self (a :: w) vs
            · refine Or.inr ⟨w, ?_, hcw⟩
              rw [splitOnPred_cons_neg (by simpa using ha) hs]
              exact List.mem_cons_of_mem (a :: v) hw

/-- If the last character is a split character, the last segment is empty. -/
theorem splitOnPred_getLast_of_p {p : Char → Bool} :
    ∀ {l : List Char} {c : Char}, l.getLast? = some c → p c = true →
      (splitOnPred p l).getLast? = some [] := by
  intro l
  induction l with
  | nil => intro c h _; cases h
  | cons a as ih =>
    intro c h hp
    cases as with
    | nil =>
      rw [List.getLast?_singleton] at h
      cases h
      rw [splitOnPred_cons_pos [] hp]
      rfl
    | cons b bs =>
      rw [List.getLast?_cons_cons] at h
      have ihs := ih h hp
      by_cases ha : p a
      · rw [splitOnPred_cons_pos (b :: bs) ha]
        rcases hs : splitOnPred p (b :: bs) with _ | ⟨v, vs⟩
        · exact absurd hs (splitOnPred_ne_nil p (b :: bs))
        · rw [hs] at ihs
          rw [List.getLast?_cons_cons]
          exact ihs
      · rcases hs : splitOnPred p (b :: bs) with _ | ⟨v, vs⟩
        · exact absurd hs (splitOnPred_ne_nil p (b :: bs))
        · rw [splitOnPred_cons_neg (by simpa using ha) hs]
          rw [hs] at ihs
          cases vs with
          | nil =>
            exfalso
            have hv : v = [] := by
              rw [List.getLast?_singleton] at ihs
              injection ihs
            have hbv : b :: bs = v := splitOnPred_single hs
            rw [hv] at hbv
            cases hbv
          | cons v2 vs2 =>
            rw [List.getLast?_cons_cons] at ihs ⊢
            exact ihs

theorem head?_intercalate {sep : Char} {v : List Char} (vs : List (List Char))
    (hne : v ≠ []) : (List.intercalate [sep] (v :: vs)).head? = v.head? := by
  cases vs with
  | nil => rw [intercalate_single_chars]
  | cons w t =>
    rw [intercalate_cons_chars, List.append_assoc, List.head?_append]
    cases v with
    | nil => exact absurd rfl hne
    | cons c cs => rfl

theorem getLast?_intercalate {sep : Char} :
    ∀ (vs : List (List Char)) (w : List Char), vs.getLast? = some w → w ≠ [] →
      (List.intercalate [sep] vs).getLast? = w.getLast? := by
  intro vs
  induction vs with
  | nil => intro w h _; cases h
  | cons v t ih =>
    intro w h hw
    cases t with
    | nil =>
      rw [List.getLast?_singleton] at h
      cases h
      rw [intercalate_single_chars]
    | cons v2 t2 =>
      rw [List.getLast?_cons_cons] at h
      rw [intercalate_cons_chars, List.append_assoc, List.getLast?_append,
        List.getLast?_append, ih w h hw]
      rcases hwl : w.getLast? with _ | c
      · exact absurd (List.getLast?_eq_none_iff.mp hwl) hw
      · simp

/-- A character inside some word of a `sep`-join is a character of the
join. -/
theorem mem_intercalate_of_mem {sep : Char} :
    ∀ (vs : List (List Char)) (v : List Char), v ∈ vs → ∀ c ∈ v,
      c ∈ List.intercalate [sep] vs := by
  intro vs
  induction vs with
  | nil => intro v hv; exact absurd hv (List.not_mem_nil v)
  | cons u t ih =>
    intro v hv c hc
    cases t with
    | nil =>
      rw [List.mem_singleton] at hv
      subst hv
      rw [intercalate_single_chars]
      exact hc
    | cons u2 t2 =>
      rw [intercalate_cons_chars]
      rcases List.mem_cons.mp hv with rfl | hv
      · exact List.mem_append_left _ (List.mem_append_left _ hc)
      · exact List.mem_append_right _ (ih v hv c hc)

theorem extract_ok_any_alpha {name : String} {ws : List String}
    (h : extract_words name = .ok ws) : name.data.any Char.isAlpha = true := by
  by_cases ha : name.data.any Char.isAlpha = true
  · exact ha
  · rw [extract_words_err (by simpa using ha)] at h
    cases h

/-- A style outside the four known names renders to Python `None`. -/
theorem renderStyle_unknown {style : String} (h : style ∉ CASE_STYLES)
    (ws : List String) : renderStyle style ws = .ok none := by
  simp only [CASE_STYLES, List.mem_cons, List.not_mem_nil, or_false, not_or] at h
  rw [renderStyle.eq_def, if_neg h.1, if_neg h.2.1, if_neg h.2.2.1, if_neg h.2.2.2]

/-- A known style renders a nonempty word list to a string. -/
theorem renderStyle_known_ok {style : String} {ws : List String}
    (hst : style ∈ CASE_STYLES) (hne : ws ≠ []) :
    ∃ s : String, renderStyle style ws = .ok (some s) := by
  simp only [CASE_STYLES, List.mem_cons, List.not_mem_nil, or_false] at hst
  rcases hst with rfl | rfl | rfl | rfl
  · exact ⟨_, renderStyle_kebab ws⟩
  · exact ⟨_, renderStyle_snake ws⟩
  · cases ws with
    | nil => exact absurd rfl hne
    | cons w rest => exact ⟨_, renderStyle_camel w rest⟩
  · exact ⟨_, renderStyle_pascal ws⟩

/-- A name that matches its style's pattern checks clean. -/
theorem check_match {name cn : String} {pat : String → Bool}
    (hp : get_pattern cn = some pat) (hm : pat name = true) :
    check name cn = .ok [] := by
  simp only [check, hp, hm, if_true]

/-- Structure of `check` at a known pattern the name fails: the mismatch
issue, then either the too-many-segments stop or the conditional
suggestion. -/
theorem check_mismatch_struct {name cn : String} {pat : String → Bool}
    (hp : get_pattern cn = some pat) (hf : pat name = false) :
    check name cn = Except.bind (extract_words name) (fun ws =>
      if ws.length > 3
      then .ok ["Does not match " ++ cn,
                "Too many segments (>3) - needs manual review"]
      else Except.bind (convert_case (.words ws) cn) (fun sugg =>
        match sugg with
        | some s =>
          if s = name then .ok ["Does not match " ++ cn]
          else .ok ["Does not match " ++ cn, "Suggested: '" ++ s ++ "'"]
        | none => .ok ["Does not match " ++ cn, "Suggested: 'None'"])) := by
  simp only [check, hp, hf, Bool.false_eq_true, if_false]
  rfl

theorem pybind_error {α β : Type} (e : PyErr) (k : α → Py β) :
    Except.bind (Except.error e) k = Except.error e := rfl

theorem pybind_ok {α β : Type} (a : α) (k : α → Py β) :
    Except.bind (Except.ok a) k = k a := rfl

theorem check_mismatch_cases {name cn : String} {pat : String → Bool} {ws : List String}
    (hp : get_pattern cn = some pat) (hf : pat name = false)
    (hex : extract_words name = .ok ws) :
    check name cn = if ws.length > 3
      then .ok ["Does not match " ++ cn,
                "Too many segments (>3) - needs manual review"]
      else Except.bind (convert_case (.words ws) cn) (fun sugg =>
        match sugg with
        | some s =>
          if s = name then .ok ["Does not match " ++ cn]
          else .ok ["Does not match " ++ cn, "Suggested: '" ++ s ++ "'"]
        | none => .ok ["Does not match " ++ cn, "Suggested: 'None'"]) := by
  rw [check_mismatch_struct hp hf, hex, pybind_ok]

theorem isSep_false_iff {c : Char} : isSep c = false ↔ c ≠ '-' ∧ c ≠ '_' := by
  rw [isSep, Bool.or_eq_false_iff, decide_eq_false_iff_not, decide_eq_false_iff_not]

theorem not_sep_of_lowerDigit {c : Char} (h : isLowerDigit c = true) : isSep c = false :=
  not_sep_of_alphanum (alnum_of_lowerDigit h)

theorem ne_dash_of_lowerDigit {c : Char} (h : isLowerDigit c = true) : c ≠ '-' :=
  (isSep_false_iff.mp (not_sep_of_lowerDigit h)).1

/-- Structural content of the kebab-case matcher: every dash-separated
segment is nonempty and `[a-z0-9]`, and every character of the name is a
dash or `[a-z0-9]`. -/
theorem kebabS_elim {name : String} (h : kebabS name = true) :
    (∀ seg ∈ splitOnPred (fun c => decide (c = '-')) name.data,
        seg ≠ [] ∧ ∀ c ∈ seg, isLowerDigit c = true)
      ∧ ∀ c ∈ name.data, c = '-' ∨ isLowerDigit c = true := by
  rw [kebabS, List.all_eq_true] at h
  constructor
  · intro seg hseg
    have hsg := h seg hseg
    rw [Bool.and_eq_true] at hsg
    refine ⟨?_, ?_⟩
    · intro he
      subst he
      simp at hsg
    · rw [← List.all_eq_true]
      exact hsg.2
  · intro c hc
    rcases chars_of_splitOnPred (p := fun c => decide (c = '-')) c hc with hp | ⟨w, hw, hcw⟩
    · exact Or.inl (of_decide_eq_true hp)
    · right
      have hsg := h w hw
      rw [Bool.and_eq_true, List.all_eq_true] at hsg
      exact hsg.2 c hcw

/-- Round-trip for a kebab-valid name with at most 3 words. -/
theorem roundtrip_kebab {name : String} {ws : List String}
    (hm : kebabS name = true) (hex : extract_words name = .ok ws)
    (hlen : ws.length ≤ 3) :
    convert_case (.words ws) "kebab-case" = .ok (some name) := by
  obtain ⟨hgood, hchar⟩ := kebabS_elim hm
  have hletter := extract_ok_any_alpha hex
  have hinter : List.intercalate ['-'] (splitOnPred (fun c => decide (c = '-')) name.data)
      = name.data :=
    intercalate_splitOnPred name.data (fun c _ hp => of_decide_eq_true hp)
  have hne_l : name.data ≠ [] := by
    intro he
    have h0 : ([] : List Char) ∈ splitOnPred (fun c => decide (c = '-')) name.data := by
      rw [he]
      exact List.mem_singleton.mpr rfl
    exact absurd rfl (hgood [] h0).1
  have hhead : ∀ c, name.data.head? = some c → isSep c = false := by
    intro c hc
    have hcm : c ∈ name.data := mem_of_head?_eq_some hc
    rcases hchar c hcm with rfl | hld
    · exfalso
      rcases hd : name.data with _ | ⟨a, as⟩
      · exact hne_l hd
      · rw [hd] at hc
        injection hc with hc
        subst hc
        have h0 : ([] : List Char) ∈ splitOnPred (fun c => decide (c = '-')) name.data := by
          rw [hd, splitOnPred_cons_pos as (by decide)]
          exact List.mem_cons_self [] _
        exact absurd rfl (hgood [] h0).1
    · exact not_sep_of_lowerDigit hld
  have hlast : ∀ c, name.data.getLast? = some c → isSep c = false := by
    intro c hc
    have hcm : c ∈ name.data := List.mem_of_getLast?_eq_some hc
    rcases hchar c hcm with rfl | hld
    · exfalso
      have h0 := splitOnPred_getLast_of_p (p := fun c => decide (c = '-')) hc (by decide)
      have h1 : ([] : List Char) ∈ splitOnPred (fun c => decide (c = '-')) name.data :=
        List.mem_of_getLast?_eq_some h0
      exact absurd rfl (hgood [] h1).1
    · exact not_sep_of_lowerDigit hld
  have hstrip : stripSeps name.data = name.data := stripSeps_eq_self hhead hlast
  have hpd_eq : ∀ c ∈ name.data, isSep c = decide (c = '-') := by
    intro c hc
    rcases hchar c hc with rfl | hld
    · decide
    · rw [not_sep_of_lowerDigit hld, decide_eq_false_iff_not.mpr (ne_dash_of_lowerDigit hld)]
  by_cases hsep : name.data.any isSep = true
  · have hexval := extract_words_split hletter (by rw [hstrip]; exact hsep)
    rw [hstrip, splitOnPred_congr name.data hpd_eq] at hexval
    rw [hexval] at hex
    injection hex with hws
    rw [convert_case_words_small (Nat.not_lt.mpr hlen), renderStyle_kebab]
    have hjoin : joinSep '-' ws = name.data := by
      rw [← hws, joinSep, List.map_map]
      have hmaps : (splitOnPred (fun c => decide (c = '-')) name.data).map
          (String.data ∘ fun v => (⟨v.map Char.toLower⟩ : String))
          = splitOnPred (fun c => decide (c = '-')) name.data := by
        apply List.map_congr_left ?_ |>.trans (List.map_id _)
        intro seg hseg
        exact map_toLower_of_lowerDigit (hgood seg hseg).2
      rw [hmaps, hinter]
    rw [hjoin]
  · have hnosep : ∀ c ∈ name.data, isSep c = false := by
      have h0 : name.data.any isSep = false := by simpa using hsep
      rw [List.any_eq_false] at h0
      intro c hc
      simpa using h0 c hc
    have hsingle : splitOnPred (fun c => decide (c = '-')) name.data = [name.data] :=
      splitOnPred_eq_single (fun c hc => by
        rw [← hpd_eq c hc]
        exact hnosep c hc)
    have hld_all : ∀ c ∈ name.data, isLowerDigit c = true :=
      (hgood name.data (by rw [hsingle]; exact List.mem_singleton.mpr rfl)).2
    have hexval := extract_words_compound hletter
      (by rw [hstrip]; simpa using hsep)
      (by rw [hstrip]; exact scanFind_all_ld hne_l hld_all)
    rw [hexval] at hex
    injection hex with hws
    rw [convert_case_words_small (Nat.not_lt.mpr hlen), renderStyle_kebab]
    have hjoin : joinSep '-' ws = name.data := by
      rw [← hws, joinSep]
      simp only [List.map_cons, List.map_nil]
      rw [intercalate_single_chars]
      exact map_toLower_of_lowerDigit hld_all
    rw [hjoin]

theorem alnum_of_lower {c : Char} (h : c.isLower = true) : c.isAlphanum = true :=
  alnum_of_lowerDigit (isLowerDigit_of_lower h)

/-- Round-trip for a snake-valid name with no trailing underscore and at
most 3 words. -/
theorem roundtrip_snake {name : String} {ws : List String}
    (hm : snakeS name = true)
    (hlastu : ∀ d, name.data.getLast? = some d → d ≠ '_')
    (hex : extract_words name = .ok ws) (hlen : ws.length ≤ 3) :
    convert_case (.words ws) "snake_case" = .ok (some name) := by
  have hletter := extract_ok_any_alpha hex
  rcases hd : name.data with _ | ⟨c, cs⟩
  · simp [snakeS, hd] at hm
  · simp only [snakeS, hd, Bool.and_eq_true, List.all_eq_true] at hm
    obtain ⟨hc_low, hcs⟩ := hm
    have hchar : ∀ a ∈ name.data, isLowerDigit a = true ∨ a = '_' := by
      intro a ha
      rw [hd, List.mem_cons] at ha
      rcases ha with rfl | ha
      · exact Or.inl (isLowerDigit_of_lower hc_low)
      · have := hcs a ha
        rw [Bool.or_eq_true_iff] at this
        rcases this with h | h
        · exact Or.inl h
        · exact Or.inr (of_decide_eq_true h)
    have hhead : ∀ a, name.data.head? = some a → isSep a = false := by
      intro a ha
      rw [hd] at ha
      injection ha with ha
      subst ha
      exact not_sep_of_lowerDigit (isLowerDigit_of_lower hc_low)
    have hlast : ∀ a, name.data.getLast? = some a → isSep a = false := by
      intro a ha
      rcases hchar a (List.mem_of_getLast?_eq_some ha) with h | rfl
      · exact not_sep_of_lowerDigit h
      · exact absurd rfl (hlastu _ ha)
    have hstrip : stripSeps name.data = name.data := stripSeps_eq_self hhead hlast
    by_cases hsep : name.data.any isSep = true
    · have hexval := extract_words_split hletter (by rw [hstrip]; exact hsep)
      rw [hstrip] at hexval
      rw [hexval] at hex
      injection hex with hws
      rw [convert_case_words_small (Nat.not_lt.mpr hlen), renderStyle_snake]
      have hsegld : ∀ seg ∈ splitOnPred isSep name.data, ∀ a ∈ seg, isLowerDigit a = true := by
        intro seg hseg a ha
        obtain ⟨haml, hans⟩ := mem_splitOnPred name.data seg hseg a ha
        rcases hchar a haml with h | rfl
        · exact h
        · exact absurd hans (by decide)
      have hjoin : joinSep '_' ws = name.data := by
        rw [← hws, joinSep, List.map_map]
        have hmaps : (splitOnPred isSep name.data).map
            (String.data ∘ fun v => (⟨v.map Char.toLower⟩ : String))
            = splitOnPred isSep name.data := by
          apply List.map_congr_left ?_ |>.trans (List.map_id _)
          intro seg hseg
          exact map_toLower_of_lowerDigit (hsegld seg hseg)
        rw [hmaps]
        apply intercalate_splitOnPred
        intro a ha hpa
        rcases hchar a ha with h | rfl
        · exact absurd hpa (by rw [not_sep_of_lowerDigit h]; simp)
        · rfl
      rw [hjoin]
    · have hnosep : ∀ a ∈ name.data, isSep a = false := by
        have h0 : name.data.any isSep = false := by simpa using hsep
        rw [List.any_eq_false] at h0
        intro a ha
        simpa using h0 a ha
      have hld_all : ∀ a ∈ name.data, isLowerDigit a = true := by
        intro a ha
        rcases hchar a ha with h | rfl
        · exact h
        · exact absurd (hnosep _ ha) (by decide)
      have hexval := extract_words_compound hletter
        (by rw [hstrip]; simpa using hsep)
        (by rw [hstrip]; exact scanFind_all_ld (by rw [hd]; simp) hld_all)
      rw [hexval] at hex
      injection hex with hws
      rw [convert_case_words_small (Nat.not_lt.mpr hlen), renderStyle_snake]
      have hjoin : joinSep '_' ws = name.data := by
        rw [← hws, joinSep]
        simp only [List.map_cons, List.map_nil]
        rw [intercalate_single_chars]
        exact map_toLower_of_lowerDigit hld_all
      rw [hjoin]

/-- Round-trip for a camel-valid name with no two adjacent capitals and
at most 3 words. -/
theorem roundtrip_camel {name : String} {ws : List String}
    (hm : camelS name = true) (hadj : adjFree name.data = true)
    (hex : extract_words name = .ok ws) (hlen : ws.length ≤ 3) :
    convert_case (.words ws) "camelCase" = .ok (some name) := by
  have hletter := extract_ok_any_alpha hex
  rcases hd : name.data with _ | ⟨c, cs⟩
  · simp [camelS, hd] at hm
  · simp only [camelS, hd, Bool.and_eq_true, List.all_eq_true] at hm
    obtain ⟨hc_low, hcs⟩ := hm
    have halnum : ∀ a ∈ name.data, a.isAlphanum = true := by
      intro a ha
      rw [hd, List.mem_cons] at ha
      rcases ha with rfl | ha
      · exact alnum_of_lower hc_low
      · exact hcs a ha
    have hnosep : ∀ a ∈ name.data, isSep a = false := fun a ha =>
      not_sep_of_alphanum (halnum a ha)
    have hstrip : stripSeps name.data = name.data := stripSeps_eq_self_of_all hnosep
    have hany : name.data.any isSep = false := by
      rw [List.any_eq_false]
      intro a ha
      simp [hnosep a ha]
    obtain ⟨w, ws', hscan, hwlow, hflat⟩ :=
      camel_rebuild hc_low (fun a ha => hcs a ha) (by rw [← hd]; exact hadj)
    have hexval := extract_words_compound hletter (by rw [hstrip]; exact hany)
      (by rw [hstrip, hd]; exact hscan)
    rw [hexval] at hex
    injection hex with hws
    rw [convert_case_words_small (Nat.not_lt.mpr hlen)]
    rw [← hws, List.map_cons, renderStyle_camel]
    have hdata : ((⟨w.map Char.toLower⟩ : String)).data = w := hwlow
    rw [hdata]
    have hrest : ((ws'.map (fun v => (⟨v.map Char.toLower⟩ : String))).map
        (fun r => pyCapitalize r.data))
        = ws'.map (fun v => pyCapitalize (v.map Char.toLower)) := by
      rw [List.map_map]
      rfl
    rw [hrest, hflat, ← hd]

/-- Round-trip for a Pascal-valid name with no two adjacent capitals and
at most 3 words. -/
theorem roundtrip_pascal {name : String} {ws : List String}
    (hm : pascalS name = true) (hadj : adjFree name.data = true)
    (hex : extract_words name = .ok ws) (hlen : ws.length ≤ 3) :
    convert_case (.words ws) "PascalCase" = .ok (some name) := by
  have hletter := extract_ok_any_alpha hex
  rcases hd : name.data with _ | ⟨u, t⟩
  · simp [pascalS, hd] at hm
  · simp only [pascalS, hd, Bool.and_eq_true, List.all_eq_true] at hm
    obtain ⟨hu, ht⟩ := hm
    have halnum : ∀ a ∈ name.data, a.isAlphanum = true := by
      intro a ha
      rw [hd, List.mem_cons] at ha
      rcases ha with rfl | ha
      · exact alnum_of_upper hu
      · exact ht a ha
    have hnosep : ∀ a ∈ name.data, isSep a = false := fun a ha =>
      not_sep_of_alphanum (halnum a ha)
    have hstrip : stripSeps name.data = name.data := stripSeps_eq_self_of_all hnosep
    have hany : name.data.any isSep = false := by
      rw [List.any_eq_false]
      intro a ha
      simp [hnosep a ha]
    obtain ⟨hne_scan, hflat⟩ :=
      pascal_rebuild hu (fun a ha => ht a ha) (by rw [← hd]; exact hadj)
    rcases hscan : scanFind (u :: t) with _ | ⟨w, ws'⟩
    · exact absurd hscan hne_scan
    · have hexval := extract_words_compound hletter (by rw [hstrip]; exact hany)
        (by rw [hstrip, hd]; exact hscan)
      rw [hexval] at hex
      injection hex with hws
      rw [convert_case_words_small (Nat.not_lt.mpr hlen), renderStyle_pascal]
      rw [← hws]
      have hrest : (((w :: ws').map (fun v => (⟨v.map Char.toLower⟩ : String))).map
          (fun r => pyCapitalize r.data))
          = (w :: ws').map (fun v => pyCapitalize (v.map Char.toLower)) := by
        rw [List.map_map]
        rfl
      rw [hrest]
      rw [hscan] at hflat
      rw [hflat, ← hd]

theorem toUpper_of_digit {c : Char} (h : c.isDigit = true) : c.toUpper = c := by
  rw [isDigit_iff] at h
  exact toUpper_eq_self_of_not_lower (by omega)

theorem capBlock {c : Char} {cs : List Char} (hld : ∀ a ∈ cs, isLowerDigit a = true) :
    pyCapitalize (c :: cs) = c.toUpper :: cs := by
  show c.toUpper :: cs.map Char.toLower = _
  rw [map_toLower_of_lowerDigit hld]

theorem takeWhile_append_all {α : Type} {p : α → Bool} {l₁ l₂ : List α}
    (h : ∀ a ∈ l₁, p a = true) : (l₁ ++ l₂).takeWhile p = l₁ ++ l₂.takeWhile p := by
  induction l₁ with
  | nil => simp
  | cons c cs ih =>
    rw [List.cons_append, List.takeWhile_cons_of_pos (h c (List.mem_cons_self c cs))]
    rw [ih (fun a ha => h a (List.mem_cons_of_mem c ha)), List.cons_append]

theorem dropWhile_append_all {α : Type} {p : α → Bool} {l₁ l₂ : List α}
    (h : ∀ a ∈ l₁, p a = true) : (l₁ ++ l₂).dropWhile p = l₂.dropWhile p := by
  induction l₁ with
  | nil => simp
  | cons c cs ih =>
    rw [List.cons_append, List.dropWhile_cons_of_pos (h c (List.mem_cons_self c cs))]
    exact ih (fun a ha => h a (List.mem_cons_of_mem c ha))

/-- Shape of the rendered form of a non-first word under camel/Pascal: a
lowercase letter, then at least one more `[a-z0-9]` character. -/
def BlockShape (b : List Char) : Prop :=
  ∃ c cs, b = c :: cs ∧ c.isLower = true ∧ cs ≠ [] ∧ ∀ a ∈ b, isLowerDigit a = true

theorem blocks_flat_shape {rest : List (List Char)}
    (h : ∀ b ∈ rest, BlockShape b) :
    ((rest.map pyCapitalize).flatten = [] ∧ rest = [])
      ∨ ∃ u t, (rest.map pyCapitalize).flatten = u :: t ∧ u.isUpper = true := by
  cases rest with
  | nil => exact Or.inl ⟨rfl, rfl⟩
  | cons b r2 =>
    obtain ⟨c, cs, rfl, hlow, hcne, hld⟩ := h b (List.mem_cons_self b r2)
    right
    refine ⟨c.toUpper, cs ++ ((r2.map pyCapitalize).flatten), ?_,
      isUpper_toUpper_of_lower hlow⟩
    rw [List.map_cons, List.flatten_cons,
      capBlock (fun a ha => hld a (List.mem_cons_of_mem c ha)), List.cons_append]

theorem blocks_alnum {rest : List (List Char)} (h : ∀ b ∈ rest, BlockShape b) :
    ∀ a ∈ (rest.map pyCapitalize).flatten, a.isAlphanum = true := by
  intro a ha
  rw [List.mem_flatten] at ha
  obtain ⟨bl, hbl, habl⟩ := ha
  rw [List.mem_map] at hbl
  obtain ⟨b, hb, rfl⟩ := hbl
  obtain ⟨c, cs, rfl, hlow, hcne, hld⟩ := h b hb
  rw [capBlock (fun a ha => hld a (List.mem_cons_of_mem c ha)), List.mem_cons] at habl
  rcases habl with rfl | h2
  · exact alnum_of_upper (isUpper_toUpper_of_lower hlow)
  · exact alnum_of_lowerDigit (hld a (List.mem_cons_of_mem c h2))

/-- Scanning the concatenation of capitalized blocks yields exactly the
capitalized blocks as chunks. -/
theorem scan_blocks :
    ∀ (rest : List (List Char)), (∀ b ∈ rest, BlockShape b) →
      scanGo .start ((rest.map pyCapitalize).flatten) = rest.map pyCapitalize := by
  intro rest
  induction rest with
  | nil => intro _; rfl
  | cons b rest' ih =>
    intro hb
    obtain ⟨c, cs, rfl, hclow, hcs_ne, hld⟩ := hb b (List.mem_cons_self b rest')
    have hcs_ld : ∀ a ∈ cs, isLowerDigit a = true := fun a ha =>
      hld a (List.mem_cons_of_mem c ha)
    have hshape' : ∀ b ∈ rest', BlockShape b := fun b hbm =>
      hb b (List.mem_cons_of_mem _ hbm)
    rw [List.map_cons, List.flatten_cons, capBlock hcs_ld]
    have hupper : (c.toUpper).isUpper = true := isUpper_toUpper_of_lower hclow
    rw [List.cons_append]
    have h1 : scanGo ScanSt.start
        (c.toUpper :: (cs ++ (rest'.map pyCapitalize).flatten))
        = scanGo (.run c.toUpper []) (cs ++ (rest'.map pyCapitalize).flatten) := by
      simp [scanGo, hupper]
    rw [h1]
    cases cs with
    | nil => exact absurd rfl hcs_ne
    | cons d ds =>
      have hdld : isLowerDigit d = true := hcs_ld d (List.mem_cons_self d ds)
      have hds_ld : ∀ a ∈ ds, isLowerDigit a = true := fun a ha =>
        hcs_ld a (List.mem_cons_of_mem d ha)
      rw [List.cons_append, scanGo_run_step _ hdld]
      have halnum : ∀ a ∈ ds ++ (rest'.map pyCapitalize).flatten, a.isAlphanum = true := by
        intro a ha
        rcases List.mem_append.mp ha with ha | ha
        · exact alnum_of_lowerDigit (hds_ld a ha)
        · exact blocks_alnum hshape' a ha
      rw [scanGo_word_eq _ [d, c.toUpper] halnum]
      have htake : (ds ++ (rest'.map pyCapitalize).flatten).takeWhile isLowerDigit = ds := by
        rw [takeWhile_append_all hds_ld]
        rcases blocks_flat_shape hshape' with ⟨hfe, _⟩ | ⟨u, t, hfe, hu⟩
        · rw [hfe]
          simp
        · rw [hfe,
            List.takeWhile_cons_of_neg (by simp [not_lowerDigit_of_upper hu]),
            List.append_nil]
      have hdrop : (ds ++ (rest'.map pyCapitalize).flatten).dropWhile isLowerDigit
          = (rest'.map pyCapitalize).flatten := by
        rw [dropWhile_append_all hds_ld]
        rcases blocks_flat_shape hshape' with ⟨hfe, _⟩ | ⟨u, t, hfe, hu⟩
        · rw [hfe]
          rfl
        · rw [hfe, List.dropWhile_cons_of_neg (by simp [not_lowerDigit_of_upper hu])]
      rw [htake, hdrop, ih hshape']
      rfl

/-- Tokenizing the `sep`-join of nonempty `[a-z0-9]` words restores the
words. -/
theorem extract_join_sep {sep : Char} (hsepT : isSep sep = true) {ws : List String}
    (hne : ws ≠ [])
    (hld : ∀ w ∈ ws, ∀ a ∈ w.data, isLowerDigit a = true)
    (hwne : ∀ w ∈ ws, w.data ≠ [])
    (hletter : ∃ w, w ∈ ws ∧ ∃ a ∈ w.data, a.isAlpha = true) :
    extract_words (⟨joinSep sep ws⟩ : String) = .ok ws := by
  have hanyA : (joinSep sep ws).any Char.isAlpha = true := by
    obtain ⟨w, hw, a, haw, halpha⟩ := hletter
    rw [List.any_eq_true]
    exact ⟨a, mem_intercalate_of_mem (ws.map String.data) w.data
      (List.mem_map_of_mem String.data hw) a haw, halpha⟩
  rcases hws : ws with _ | ⟨w0, wr⟩
  · exact absurd hws hne
  subst hws
  cases wr with
  | nil =>
    have hj : joinSep sep [w0] = w0.data := by
      rw [joinSep, List.map_cons, List.map_nil, intercalate_single_chars]
    have hld0 : ∀ a ∈ w0.data, isLowerDigit a = true :=
      hld w0 (List.mem_cons_self w0 [])
    have hnosep : ∀ a ∈ joinSep sep [w0], isSep a = false := by
      intro a ha
      rw [hj] at ha
      exact not_sep_of_lowerDigit (hld0 a ha)
    have hstrip : stripSeps (joinSep sep [w0]) = joinSep sep [w0] :=
      stripSeps_eq_self_of_all hnosep
    have hany : (joinSep sep [w0]).any isSep = false := by
      rw [List.any_eq_false]
      intro a ha
      simp [hnosep a ha]
    have hexv := @extract_words_compound (⟨joinSep sep [w0]⟩ : String)
      (show (joinSep sep [w0]).any Char.isAlpha = true from hanyA)
      (show (stripSeps (joinSep sep [w0])).any isSep = false by rw [hstrip]; exact hany)
      w0.data []
      (show scanFind (stripSeps (joinSep sep [w0])) = w0.data :: [] by
        rw [hstrip, hj]
        exact scanFind_all_ld (hwne w0 (List.mem_cons_self w0 [])) hld0)
    rw [hexv]
    have hw0id : (⟨w0.data.map Char.toLower⟩ : String) = w0 := by
      rw [map_toLower_of_lowerDigit hld0]
    rw [List.map_cons, List.map_nil, hw0id]
  | cons w1 wr' =>
    have hmapne : ((w0 :: w1 :: wr').map String.data) ≠ [] := by simp
    have hwordfree : ∀ v ∈ (w0 :: w1 :: wr').map String.data, ∀ a ∈ v, isSep a = false := by
      intro v hv a ha
      rw [List.mem_map] at hv
      obtain ⟨w, hw, rfl⟩ := hv
      exact not_sep_of_lowerDigit (hld w hw a ha)
    have hsplit : splitOnPred isSep (joinSep sep (w0 :: w1 :: wr'))
        = (w0 :: w1 :: wr').map String.data := by
      rw [joinSep]
      exact splitOnPred_intercalate hsepT _ hmapne hwordfree
    have hmem_sep : sep ∈ joinSep sep (w0 :: w1 :: wr') := by
      rw [joinSep, List.map_cons, List.map_cons, intercalate_cons_chars]
      exact List.mem_append_left _ (List.mem_append_right _ (List.mem_singleton.mpr rfl))
    have hany : (joinSep sep (w0 :: w1 :: wr')).any isSep = true := by
      rw [List.any_eq_true]
      exact ⟨sep, hmem_sep, hsepT⟩
    have hhead : ∀ a, (joinSep sep (w0 :: w1 :: wr')).head? = some a → isSep a = false := by
      intro a ha
      rw [joinSep, List.map_cons,
        head?_intercalate _ (hwne w0 (List.mem_cons_self w0 _))] at ha
      exact not_sep_of_lowerDigit
        (hld w0 (List.mem_cons_self w0 _) a (mem_of_head?_eq_some ha))
    have hlastw : ∃ wl, (w0 :: w1 :: wr').getLast? = some wl ∧ wl ∈ w0 :: w1 :: wr' := by
      refine ⟨(w0 :: w1 :: wr').getLast (by simp), ?_, ?_⟩
      · exact List.getLast?_eq_getLast _ _
      · exact List.getLast_mem _
    have hlast : ∀ a, (joinSep sep (w0 :: w1 :: wr')).getLast? = some a → isSep a = false := by
      intro a ha
      obtain ⟨wl, hgl, hmem⟩ := hlastw
      have hglm : ((w0 :: w1 :: wr').map String.data).getLast? = some wl.data := by
        rw [List.getLast?_map, hgl]
        rfl
      rw [joinSep] at ha
      rw [getLast?_intercalate _ wl.data hglm (hwne wl hmem)] at ha
      exact not_sep_of_lowerDigit
        (hld wl hmem a (List.mem_of_getLast?_eq_some ha))
    have hstrip : stripSeps (joinSep sep (w0 :: w1 :: wr')) = joinSep sep (w0 :: w1 :: wr') :=
      stripSeps_eq_self hhead hlast
    have hexv := @extract_words_split (⟨joinSep sep (w0 :: w1 :: wr')⟩ : String)
      (show (joinSep sep (w0 :: w1 :: wr')).any Char.isAlpha = true from hanyA)
      (show (stripSeps (joinSep sep (w0 :: w1 :: wr'))).any isSep = true by
        rw [hstrip]; exact hany)
    rw [hexv]
    show Except.ok ((splitOnPred isSep (stripSeps (joinSep sep (w0 :: w1 :: wr')))).map
        (fun v => (⟨v.map Char.toLower⟩ : String))) = Except.ok (w0 :: w1 :: wr')
    rw [hstrip, hsplit, List.map_map]
    have hmapsid : ((w0 :: w1 :: wr').map
        ((fun v => (⟨v.map Char.toLower⟩ : String)) ∘ String.data)) = w0 :: w1 :: wr' := by
      apply List.map_congr_left ?_ |>.trans (List.map_id _)
      intro w hw
      show (⟨w.data.map Char.toLower⟩ : String) = w
      rw [map_toLower_of_lowerDigit (hld w hw)]
    rw [hmapsid]

/-- Tokenizing a `[a-z0-9]` first chunk followed by capitalized blocks
yields the chunk and the blocks, lowercased. -/
theorem extract_camel_like {w0 : List Char} {wr : List (List Char)}
    (hw0ne : w0 ≠ []) (hw0ld : ∀ a ∈ w0, isLowerDigit a = true)
    (hblocks : ∀ b ∈ wr, BlockShape b)
    (hletter : (w0 ++ (wr.map pyCapitalize).flatten).any Char.isAlpha = true) :
    extract_words (⟨w0 ++ (wr.map pyCapitalize).flatten⟩ : String)
      = .ok ((w0 :: wr.map pyCapitalize).map
          (fun v => (⟨v.map Char.toLower⟩ : String))) := by
  have hdata : (⟨w0 ++ (wr.map pyCapitalize).flatten⟩ : String).data
      = w0 ++ (wr.map pyCapitalize).flatten := rfl
  have halnumAll : ∀ a ∈ w0 ++ (wr.map pyCapitalize).flatten, a.isAlphanum = true := by
    intro a ha
    rcases List.mem_append.mp ha with h | h
    · exact alnum_of_lowerDigit (hw0ld a h)
    · exact blocks_alnum hblocks a h
  have hnosep : ∀ a ∈ w0 ++ (wr.map pyCapitalize).flatten, isSep a = false := fun a ha =>
    not_sep_of_alphanum (halnumAll a ha)
  have hstrip : stripSeps (w0 ++ (wr.map pyCapitalize).flatten)
      = w0 ++ (wr.map pyCapitalize).flatten := stripSeps_eq_self_of_all hnosep
  have hany : (w0 ++ (wr.map pyCapitalize).flatten).any isSep = false := by
    rw [List.any_eq_false]
    intro a ha
    simp [hnosep a ha]
  have hscan : scanFind (w0 ++ (wr.map pyCapitalize).flatten)
      = w0 :: wr.map pyCapitalize := by
    cases w0 with
    | nil => exact absurd rfl hw0ne
    | cons c0 cs0 =>
      have hc0 : isLowerDigit c0 = true := hw0ld c0 (List.mem_cons_self c0 cs0)
      have hcs0 : ∀ a ∈ cs0, isLowerDigit a = true := fun a ha =>
        hw0ld a (List.mem_cons_of_mem c0 ha)
      rw [List.cons_append, scanFind, scanGo_start_ld hc0 (by
        intro a ha
        exact halnumAll a (by
          rw [List.cons_append]
          exact List.mem_cons_of_mem c0 ha))]
      have htake : (cs0 ++ (wr.map pyCapitalize).flatten).takeWhile isLowerDigit = cs0 := by
        rw [takeWhile_append_all hcs0]
        rcases blocks_flat_shape hblocks with ⟨hfe, _⟩ | ⟨u, t, hfe, hu⟩
        · rw [hfe]
          simp
        · rw [hfe,
            List.takeWhile_cons_of_neg (by simp [not_lowerDigit_of_upper hu]),
            List.append_nil]
      have hdrop : (cs0 ++ (wr.map pyCapitalize).flatten).dropWhile isLowerDigit
          = (wr.map pyCapitalize).flatten := by
        rw [dropWhile_append_all hcs0]
        rcases blocks_flat_shape hblocks with ⟨hfe, _⟩ | ⟨u, t, hfe, hu⟩
        · rw [hfe]
          rfl
        · rw [hfe, List.dropWhile_cons_of_neg (by simp [not_lowerDigit_of_upper hu])]
      rw [htake, hdrop, scan_blocks wr hblocks]
  exact extract_words_compound (by rw [hdata]; exact hletter)
    (by rw [hdata, hstrip]; exact hany) (by rw [hdata, hstrip]; exact hscan)

/-- Tokenizing a pure concatenation of capitalized blocks yields the
blocks, lowercased. -/
theorem extract_blocks {wsd : List (List Char)} (hblocks : ∀ b ∈ wsd, BlockShape b)
    (hne : wsd ≠ [])
    (hletter : ((wsd.map pyCapitalize).flatten).any Char.isAlpha = true) :
    extract_words (⟨(wsd.map pyCapitalize).flatten⟩ : String)
      = .ok ((wsd.map pyCapitalize).map (fun v => (⟨v.map Char.toLower⟩ : String))) := by
  have hdata : (⟨(wsd.map pyCapitalize).flatten⟩ : String).data
      = (wsd.map pyCapitalize).flatten := rfl
  have hnosep : ∀ a ∈ (wsd.map pyCapitalize).flatten, isSep a = false := fun a ha =>
    not_sep_of_alphanum (blocks_alnum hblocks a ha)
  have hstrip := stripSeps_eq_self_of_all hnosep
  have hany : ((wsd.map pyCapitalize).flatten).any isSep = false := by
    rw [List.any_eq_false]
    intro a ha
    simp [hnosep a ha]
  cases wsd with
  | nil => exact absurd rfl hne
  | cons b r =>
    have hscan := scan_blocks (b :: r) hblocks
    have hscan' : scanFind (((b :: r).map pyCapitalize).flatten)
        = pyCapitalize b :: r.map pyCapitalize := by
      show scanGo .start (((b :: r).map pyCapitalize).flatten) = _
      rw [hscan, List.map_cons]
    exact extract_words_compound
      (show (((b :: r).map pyCapitalize).flatten).any Char.isAlpha = true from hletter)
      (show (stripSeps (((b :: r).map pyCapitalize).flatten)).any isSep = false by
        rw [hstrip]; exact hany)
      (show scanFind (stripSeps (((b :: r).map pyCapitalize).flatten))
          = pyCapitalize b :: r.map pyCapitalize by
        rw [hstrip]; exact hscan')

theorem alpha_of_upper {c : Char} (h : c.isUpper = true) : c.isAlpha = true := by
  rw [Char.isAlpha, h, Bool.true_or]

/-- Words of length at least 2, all `[a-z0-9]`, starting with a lowercase
letter, have block shape after taking their character lists. -/
theorem blocks_of_words {wr : List String}
    (hld : ∀ w ∈ wr, ∀ a ∈ w.data, isLowerDigit a = true)
    (hlen2 : ∀ w ∈ wr, 2 ≤ w.data.length)
    (htl : ∀ w ∈ wr, ∃ c cs, w.data = c :: cs ∧ c.isLower = true) :
    ∀ b ∈ wr.map String.data, BlockShape b := by
  intro b hb
  rw [List.mem_map] at hb
  obtain ⟨w, hw, rfl⟩ := hb
  obtain ⟨c, cs, hdw, hlow⟩ := htl w hw
  refine ⟨c, cs, hdw, hlow, ?_, hld w hw⟩
  intro he
  have hl2 := hlen2 w hw
  rw [hdw, he] at hl2
  simp at hl2

/-- Lowercasing the capitalized blocks gives back the original words. -/
theorem map_lower_blocks {wr : List String}
    (hld : ∀ w ∈ wr, ∀ a ∈ w.data, isLowerDigit a = true)
    (htl : ∀ w ∈ wr, ∃ c cs, w.data = c :: cs ∧ c.isLower = true) :
    (((wr.map String.data).map pyCapitalize).map
        (fun v => (⟨v.map Char.toLower⟩ : String))) = wr := by
  rw [List.map_map, List.map_map]
  apply List.map_congr_left ?_ |>.trans (List.map_id _)
  intro w hw
  obtain ⟨c, cs, hdw, hlow⟩ := htl w hw
  show (⟨(pyCapitalize w.data).map Char.toLower⟩ : String) = w
  have hcs_ld : ∀ a ∈ cs, isLowerDigit a = true := by
    intro a ha
    exact hld w hw a (by rw [hdw]; exact List.mem_cons_of_mem c ha)
  rw [hdw, capBlock hcs_ld, List.map_cons, toLower_toUpper_of_lower hlow,
    map_toLower_of_lowerDigit hcs_ld, ← hdw]

/-- The rendered camel/Pascal shape `fun r => pyCapitalize r.data` agrees
with capitalizing the raw character lists. -/
theorem map_pyCap_data (wr : List String) :
    (wr.map String.data).map pyCapitalize = wr.map (fun r => pyCapitalize r.data) := by
  rw [List.map_map]
  rfl

/-! ## The claims -/

/-- C1 counterexample: at a name with no letter (here `""`, which fails
the kebab-case pattern), `check` does not return an issue list at all —
it propagates the tokenizer's `ValueError` — so the claimed behaviour
does not hold for every name. -/
theorem C1_counterexample :
    kebabM "" = false
      ∧ check "" "kebab-case" = .error (.valueError (letterErrMsg "")) := by decide

/-- C1 (amended): for every name containing at least one ASCII letter
(equivalently, whose tokenization succeeds) and every style with a known
pattern, when the name fails the pattern `check` first emits an issue
stating the name does not match the style; then, with more than 3
extracted words, it emits exactly one further manual-review issue and
computes no suggestion; otherwise it renders the extracted words in the
style and emits a `Suggested: '<value>'` issue exactly when the rendered
value differs from the name. -/
theorem C1_theorem (name style : String) (pat : String → Bool) (ws : List String)
    (hp : get_pattern style = some pat) (hfail : pat name = false)
    (hex : extract_words name = .ok ws) :
    ∃ issues : List String, check name style = .ok issues
      ∧ issues.head? = some ("Does not match " ++ style)
      ∧ (ws.length > 3 →
          issues = ["Does not match " ++ style,
                    "Too many segments (>3) - needs manual review"])
      ∧ (ws.length ≤ 3 → ∃ s : String,
          convert_case (.words ws) style = .ok (some s)
          ∧ (s ≠ name →
              issues = ["Does not match " ++ style, "Suggested: '" ++ s ++ "'"])
          ∧ (s = name → issues = ["Does not match " ++ style])) := by
  have hred := check_mismatch_cases hp hfail hex
  by_cases hlen : ws.length > 3
  · rw [if_pos hlen] at hred
    exact ⟨_, hred, rfl, fun _ => rfl, fun hle => absurd hlen (Nat.not_lt.mpr hle)⟩
  · rw [if_neg hlen] at hred
    have hstyles : style ∈ CASE_STYLES := by
      rcases get_pattern_cases hp with ⟨h, _⟩ | ⟨h, _⟩ | ⟨h, _⟩ | ⟨h, _⟩ <;>
        simp [CASE_STYLES, h]
    have hconv : convert_case (.words ws) style = renderStyle style ws :=
      convert_case_words_small hlen
    obtain ⟨s, hrs⟩ := renderStyle_known_ok hstyles (extract_words_ne_nil hex)
    have hcc : convert_case (.words ws) style = .ok (some s) := hconv.trans hrs
    rw [hcc, pybind_ok] at hred
    have hred' : check name style
        = if s = name
          then Except.ok ["Does not match " ++ style]
          else Except.ok ["Does not match " ++ style, "Suggested: '" ++ s ++ "'"] := hred
    by_cases hs : s = name
    · rw [if_pos hs] at hred'
      exact ⟨_, hred', rfl, fun hgt => absurd hgt hlen,
        fun _ => ⟨s, hcc, fun hne => absurd hs hne, fun _ => rfl⟩⟩
    · rw [if_neg hs] at hred'
      exact ⟨_, hred', rfl, fun hgt => absurd hgt hlen,
        fun _ => ⟨s, hcc, fun _ => rfl, fun he => absurd he hs⟩⟩

/-- C1 witness: the specification's example — the second issue of
`check("MyRepoName", "kebab-case")` is `Suggested: 'my-repo-name'`. -/
theorem C1_theorem_witness :
    kebabM "MyRepoName" = false
      ∧ check "MyRepoName" "kebab-case"
          = .ok ["Does not match kebab-case", "Suggested: 'my-repo-name'"] := by
  refine ⟨by decide, ?_⟩
  obtain ⟨issues, hck, hhead, hbig, hsmall⟩ :=
    C1_theorem "MyRepoName" "kebab-case" kebabM ["my", "repo", "name"] rfl
      (by decide) (by decide)
  obtain ⟨s, hcc, hne, heq⟩ := hsmall (by decide)
  have h1 : convert_case (.words ["my", "repo", "name"]) "kebab-case"
      = .ok (some "my-repo-name") := by decide
  rw [h1] at hcc
  injection hcc with hcc1
  injection hcc1 with hcc2
  subst hcc2
  have hiss := hne (by decide)
  rw [hck, hiss]
  decide

/-- C2 counterexample: the name `"abc" ++ "\n"` is not a whole-string
match of the kebab-case pattern body, yet `re.match` accepts it — the
`$` anchor matches just before the trailing newline, i.e. at the end of
a proper prefix — and `check` deems the name conformant, returning the
empty issue list. -/
theorem C2_counterexample :
    kebabS (⟨['a', 'b', 'c', nl]⟩ : String) = false
      ∧ kebabM (⟨['a', 'b', 'c', nl]⟩ : String) = true
      ∧ check (⟨['a', 'b', 'c', nl]⟩ : String) "kebab-case" = .ok [] := by decide

/-- C2 (amended): for every name and style with a known (built-in)
pattern, `check` returns the empty issue list exactly when `re.match`
accepts the name under the anchored pattern: either the pattern body
matches the whole name, or the name ends in a single newline and the
body matches everything before it (Python's `$` also matches just before
a trailing newline) — so one kind of proper-prefix match, a match ending
before a trailing newline, does make a name conformant. -/
theorem C2_theorem (name case_name : String) (core : String → Bool)
    (hp : get_pattern case_name = some (pyDollar core)) :
    check name case_name = .ok []
      ↔ (core name = true
          ∨ (name.data.getLast? = some nl
              ∧ core (⟨name.data.dropLast⟩ : String) = true)) := by
  have hdollar : pyDollar core name = true
      ↔ (core name = true
          ∨ (name.data.getLast? = some nl
              ∧ core (⟨name.data.dropLast⟩ : String) = true)) := by
    simp [pyDollar]
  rw [← hdollar]
  constructor
  · intro h
    by_contra hm
    have hf : pyDollar core name = false := by simpa using hm
    cases hex : extract_words name with
    | error e =>
      rw [check_mismatch_struct hp hf, hex, pybind_error] at h
      cases h
    | ok ws =>
      rw [check_mismatch_cases hp hf hex] at h
      by_cases hlen : ws.length > 3
      · rw [if_pos hlen] at h
        simp at h
      · rw [if_neg hlen] at h
        cases hcc : convert_case (.words ws) case_name with
        | error e => rw [hcc, pybind_error] at h; cases h
        | ok sugg =>
          rw [hcc, pybind_ok] at h
          cases sugg with
          | none => simp at h
          | some s =>
            have h' : (if s = name
                then Except.ok ["Does not match " ++ case_name]
                else Except.ok ["Does not match " ++ case_name,
                                "Suggested: '" ++ s ++ "'"])
                = Except.ok ([] : List String) := h
            by_cases hs : s = name
            · rw [if_pos hs] at h'
              simp at h'
            · rw [if_neg hs] at h'
              simp at h'
  · intro hm
    exact check_match hp hm

/-- C2 witness: the trailing-newline branch at `"abc" ++ "\n"` (conformant
through the newline allowance) and the whole-string branch at the
specification's example `"openaec-tools"`. -/
theorem C2_theorem_witness :
    get_pattern "kebab-case" = some (pyDollar kebabS)
      ∧ check (⟨['a', 'b', 'c', nl]⟩ : String) "kebab-case" = .ok []
      ∧ check "openaec-tools" "kebab-case" = .ok [] :=
  ⟨rfl,
    ( C2_theorem (⟨['a', 'b', 'c', nl]⟩ : String) "kebab-case" kebabS rfl).mpr
      (Or.inr ⟨by decide, by decide⟩),
    ( C2_theorem "openaec-tools" "kebab-case" kebabS rfl).mpr (Or.inl (by decide))⟩

/-- C3: on more than 3 (nonempty) words, `convert_case` collapses the
sequence to the single initialism word and only then applies the style's
joining/capitalization rule to that one-word sequence. -/
theorem C3_theorem (ws : List String) (style : String) (hlen : ws.length > 3)
    (hw : ∀ w ∈ ws, w.data ≠ []) (_hst : style ∈ CASE_STYLES) :
    convert_case (.words ws) style
      = renderStyle style [(⟨initialism ws⟩ : String)] :=
  convert_case_words_merge hlen (firstChars_ok hw)

/-- C3 witness at the specification's 4-word example, in kebab-case. -/
theorem C3_theorem_witness :
    (["open", "pdf", "studio", "tool"] : List String).length > 3
      ∧ "kebab-case" ∈ CASE_STYLES
      ∧ convert_case (.words ["open", "pdf", "studio", "tool"]) "kebab-case"
          = renderStyle "kebab-case"
              [(⟨initialism ["open", "pdf", "studio", "tool"]⟩ : String)] :=
  ⟨by decide, by decide,
    C3_theorem ["open", "pdf", "studio", "tool"] "kebab-case" (by decide) (by decide)
      (by decide)⟩

/-- C4 counterexample: the 4-word example renders in kebab-case to
`"opst"` (the initialism is a single word, joined with no separator), not
to the claimed `"o-p-s-t"`. -/
theorem C4_counterexample :
    convert_case (.words ["open", "pdf", "studio", "tool"]) "kebab-case"
        = .ok (some "opst")
      ∧ ("opst" : String) ≠ "o-p-s-t" := by decide

/-- C4 (amended): the 4-word example renders in kebab-case to the
concatenated initialism `"opst"`; the style separator is not applied
because the collapse yields a one-word sequence. -/
theorem C4_theorem :
    convert_case (.words ["open", "pdf", "studio", "tool"]) "kebab-case"
      = .ok (some "opst") := by decide

/-- C5 counterexample: a direct suggest call with an unknown style returns
Python `None` (a normal return), not an `UnsupportedStyle` failure. -/
theorem C5_counterexample :
    get_suggested_name "abc" "SCREAMING_SNAKE_CASE" = .ok none := by decide

/-- C5 (amended): for a style outside the supported set, `convert_case`
falls off the end of its `if` chain and returns Python `None` instead of
raising; no `UnsupportedStyle` error exists in the code. -/
theorem C5_theorem (ws : List String) (style : String) (hst : style ∉ CASE_STYLES)
    (hw : ∀ w ∈ ws, w.data ≠ []) :
    convert_case (.words ws) style = .ok none := by
  by_cases hlen : ws.length > 3
  · rw [convert_case_words_merge hlen (firstChars_ok hw)]
    exact renderStyle_unknown hst _
  · rw [convert_case_words_small hlen]
    exact renderStyle_unknown hst ws

/-- C5 witness at a concrete unknown style. -/
theorem C5_theorem_witness :
    ("SCREAMING_SNAKE_CASE" ∉ CASE_STYLES)
      ∧ convert_case (.words ["my", "repo"]) "SCREAMING_SNAKE_CASE" = .ok none :=
  ⟨by decide, C5_theorem ["my", "repo"] "SCREAMING_SNAKE_CASE" (by decide) (by decide)⟩

/-- C6 counterexample: `extract_words("a--b")` returns `["a", "", "b"]` —
the split is at every single separator character, not at maximal runs, and
an empty segment is returned. -/
theorem C6_counterexample :
    extract_words "a--b" = .ok ["a", "", "b"]
      ∧ ("" : String) ∈ (["a", "", "b"] : List String) := by decide

/-- C6 (amended): on the delimiter path `extract_words` splits at every
individual hyphen/underscore occurrence (so a run of `k` separators
contributes `k` split points and the segment count is the separator count
plus one, with empty segments between consecutive separators) and
lowercases each resulting segment. -/
theorem C6_theorem (name : String) (hletter : name.data.any Char.isAlpha = true)
    (hsep : (stripSeps name.data).any isSep = true) :
    extract_words name
        = .ok ((splitOnPred isSep (stripSeps name.data)).map
            (fun v => (⟨v.map Char.toLower⟩ : String)))
      ∧ (splitOnPred isSep (stripSeps name.data)).length
          = (stripSeps name.data).countP isSep + 1 :=
  ⟨extract_words_split hletter hsep,
    length_splitOnPred isSep (stripSeps name.data)⟩

/-- C6 witness at `"a--b"`. -/
theorem C6_theorem_witness :
    ("a--b" : String).data.any Char.isAlpha = true
      ∧ (stripSeps ("a--b" : String).data).any isSep = true
      ∧ extract_words "a--b"
          = .ok ((splitOnPred isSep (stripSeps ("a--b" : String).data)).map
              (fun v => (⟨v.map Char.toLower⟩ : String)))
      ∧ (splitOnPred isSep (stripSeps ("a--b" : String).data)).length
          = (stripSeps ("a--b" : String).data).countP isSep + 1 := by
  refine ⟨by decide, by decide, ?_, ?_⟩
  · exact ( C6_theorem "a--b" (by decide) (by decide)).1
  · exact ( C6_theorem "a--b" (by decide) (by decide)).2

/-- C7 counterexample: two names that validate against their style's
built-in pattern under `re.match` yet do not survive the round trip.
`"a_"` matches `^[a-z][a-z0-9_]*$`, but the trailing underscore is
stripped: it tokenizes to `["a"]` and renders back to `"a"`.
`"ab" ++ "\n"` is accepted by the kebab-case pattern only through the
trailing-newline allowance of `$`; it tokenizes to `["ab"]` and renders
back to `"ab"` without the newline. -/
theorem C7_counterexample :
    snakeM "a_" = true ∧ extract_words "a_" = .ok ["a"]
      ∧ convert_case (.words ["a"]) "snake_case" = .ok (some "a")
      ∧ ("a" : String) ≠ "a_"
      ∧ kebabM (⟨['a', 'b', nl]⟩ : String) = true
      ∧ extract_words (⟨['a', 'b', nl]⟩ : String) = .ok ["ab"]
      ∧ convert_case (.words ["ab"]) "kebab-case" = .ok (some "ab")
      ∧ ("ab" : String) ≠ (⟨['a', 'b', nl]⟩ : String) := by decide

/-- C7 (amended): for every name that validates against its style's
built-in pattern as a strict whole-string match (excluding the names
`re.match` accepts only through the trailing-newline allowance of `$`,
which render without their newline) and tokenizes to at most 3 words,
`convert_case(extract_words(name), style)` equals the name — for
kebab-case with no further condition; for snake_case when the name has no
trailing underscore; for camelCase/PascalCase when the name has no two
adjacent uppercase letters (acronym runs re-tokenize differently, e.g.
`"ABC"`). -/
theorem C7_theorem (name : String) (ws : List String) (style : String)
    (hex : extract_words name = .ok ws) (hlen : ws.length ≤ 3)
    (hcond :
      (style = "kebab-case" ∧ kebabS name = true)
      ∨ (style = "snake_case" ∧ snakeS name = true
          ∧ ∀ d, name.data.getLast? = some d → d ≠ '_')
      ∨ (style = "camelCase" ∧ camelS name = true ∧ adjFree name.data = true)
      ∨ (style = "PascalCase" ∧ pascalS name = true ∧ adjFree name.data = true)) :
    convert_case (.words ws) style = .ok (some name) := by
  rcases hcond with ⟨rfl, hm⟩ | ⟨rfl, hm, hside⟩ | ⟨rfl, hm, hside⟩ | ⟨rfl, hm, hside⟩
  · exact roundtrip_kebab hm hex hlen
  · exact roundtrip_snake hm hside hex hlen
  · exact roundtrip_camel hm hside hex hlen
  · exact roundtrip_pascal hm hside hex hlen

/-- C7 witness: the kebab-case identity at `"my-repo-name"`. -/
theorem C7_theorem_witness :
    extract_words "my-repo-name" = .ok ["my", "repo", "name"]
      ∧ kebabS "my-repo-name" = true
      ∧ convert_case (.words ["my", "repo", "name"]) "kebab-case"
          = .ok (some "my-repo-name") :=
  ⟨by decide, by decide,
    C7_theorem "my-repo-name" ["my", "repo", "name"] "kebab-case" (by decide) (by decide)
      (Or.inl ⟨rfl, by decide⟩)⟩

/-- C8 counterexample: `"a-1b"` tokenizes to `["a", "1b"]`, renders in
camelCase to `"a1b"` (capitalizing `"1b"` leaves the digit as is), and
`"a1b"` re-tokenizes to the single word `["a1b"]`, not `["a", "1b"]`. -/
theorem C8_counterexample :
    extract_words "a-1b" = .ok ["a", "1b"]
      ∧ convert_case (.words ["a", "1b"]) "camelCase" = .ok (some "a1b")
      ∧ extract_words "a1b" = .ok ["a1b"]
      ∧ (["a1b"] : List String) ≠ ["a", "1b"] := by decide

/-- C8 (amended): for a name tokenizing to at most 3 words, rendering into
any built-in style and re-tokenizing restores the word sequence, provided
every word has at least 2 characters of `[a-z0-9]`, every word after the
first starts with a lowercase letter, and some word contains a letter
(conditions violated exactly by the counterexample shapes: empty words
from consecutive separators, digit-led later words, one-letter words). -/
theorem C8_theorem (name : String) (ws : List String) (style : String)
    (hex : extract_words name = .ok ws) (hlen : ws.length ≤ 3)
    (hsh : ∀ w ∈ ws, (∀ a ∈ w.data, isLowerDigit a = true) ∧ 2 ≤ w.data.length)
    (htl : ∀ w ∈ ws.tail, ∃ c cs, w.data = c :: cs ∧ c.isLower = true)
    (hlet : ∃ w, w ∈ ws ∧ ∃ a ∈ w.data, a.isAlpha = true)
    (hst : style ∈ CASE_STYLES) :
    ∃ s : String, convert_case (.words ws) style = .ok (some s)
      ∧ extract_words s = .ok ws := by
  have hne : ws ≠ [] := extract_words_ne_nil hex
  have hwne : ∀ w ∈ ws, w.data ≠ [] := by
    intro w hw he
    have h2 := (hsh w hw).2
    rw [he] at h2
    simp at h2
  have hldw : ∀ w ∈ ws, ∀ a ∈ w.data, isLowerDigit a = true := fun w hw => (hsh w hw).1
  rw [convert_case_words_small (Nat.not_lt.mpr hlen)]
  simp only [CASE_STYLES, List.mem_cons, List.not_mem_nil, or_false] at hst
  rcases hst with rfl | rfl | rfl | rfl
  · exact ⟨⟨joinSep '-' ws⟩, renderStyle_kebab ws,
      extract_join_sep (by decide) hne hldw hwne hlet⟩
  · exact ⟨⟨joinSep '_' ws⟩, renderStyle_snake ws,
      extract_join_sep (by decide) hne hldw hwne hlet⟩
  · rcases hws : ws with _ | ⟨w0, wr⟩
    · exact absurd hws hne
    subst hws
    have hldr : ∀ w ∈ wr, ∀ a ∈ w.data, isLowerDigit a = true := fun w hw =>
      hldw w (List.mem_cons_of_mem w0 hw)
    have hblocks : ∀ b ∈ wr.map String.data, BlockShape b :=
      blocks_of_words hldr
        (fun w hw => (hsh w (List.mem_cons_of_mem w0 hw)).2) htl
    have hw0ld := hldw w0 (List.mem_cons_self w0 wr)
    have hw0ne := hwne w0 (List.mem_cons_self w0 wr)
    have hlet' : (w0.data ++ (((wr.map String.data).map pyCapitalize)).flatten).any
        Char.isAlpha = true := by
      rw [List.any_eq_true]
      cases wr with
      | nil =>
        obtain ⟨w, hw, a, haw, halpha⟩ := hlet
        rw [List.mem_singleton] at hw
        subst hw
        exact ⟨a, List.mem_append_left _ haw, halpha⟩
      | cons v vr =>
        obtain ⟨c, cs, hdv, hlow⟩ := htl v (List.mem_cons_self v vr)
        refine ⟨c.toUpper, ?_, alpha_of_upper (isUpper_toUpper_of_lower hlow)⟩
        apply List.mem_append_right
        rw [List.map_cons, List.map_cons, List.flatten_cons, hdv,
          capBlock (by
            intro a ha
            exact hldr v (List.mem_cons_self v vr) a (by
              rw [hdv]
              exact List.mem_cons_of_mem c ha))]
        exact List.mem_append_left _ (List.mem_cons_self _ _)
    refine ⟨⟨w0.data ++ (((wr.map String.data).map pyCapitalize)).flatten⟩, ?_, ?_⟩
    · rw [renderStyle_camel, map_pyCap_data]
    · rw [extract_camel_like hw0ne hw0ld hblocks hlet']
      rw [List.map_cons, map_lower_blocks hldr htl, map_toLower_of_lowerDigit hw0ld]
  · rcases hws : ws with _ | ⟨w0, wr⟩
    · exact absurd hws hne
    subst hws
    have hldr : ∀ w ∈ wr, ∀ a ∈ w.data, isLowerDigit a = true := fun w hw =>
      hldw w (List.mem_cons_of_mem w0 hw)
    have hblocks : ∀ b ∈ wr.map String.data, BlockShape b :=
      blocks_of_words hldr
        (fun w hw => (hsh w (List.mem_cons_of_mem w0 hw)).2) htl
    have hw0ld := hldw w0 (List.mem_cons_self w0 wr)
    have hw0ne := hwne w0 (List.mem_cons_self w0 wr)
    rcases hd0 : w0.data with _ | ⟨c0, cs0⟩
    · exact absurd hd0 hw0ne
    have hc0ld : isLowerDigit c0 = true := by
      apply hw0ld
      rw [hd0]
      exact List.mem_cons_self c0 cs0
    have hcs0ld : ∀ a ∈ cs0, isLowerDigit a = true := by
      intro a ha
      apply hw0ld
      rw [hd0]
      exact List.mem_cons_of_mem c0 ha
    have hcs0ne : cs0 ≠ [] := by
      intro he
      have h2 := (hsh w0 (List.mem_cons_self w0 wr)).2
      rw [hd0, he] at h2
      simp at h2
    by_cases hc0low : c0.isLower = true
    · -- every word, the first included, renders as a capitalized block
      have hblocksAll : ∀ b ∈ (w0 :: wr).map String.data, BlockShape b := by
        intro b hb
        rw [List.map_cons, List.mem_cons] at hb
        rcases hb with rfl | hb
        · exact ⟨c0, cs0, hd0, hc0low, hcs0ne, hw0ld⟩
        · exact hblocks b hb
      have hlet' : ((((w0 :: wr).map String.data).map pyCapitalize).flatten).any
          Char.isAlpha = true := by
        rw [List.any_eq_true]
        refine ⟨c0.toUpper, ?_, alpha_of_upper (isUpper_toUpper_of_lower hc0low)⟩
        rw [List.map_cons, List.map_cons, List.flatten_cons, hd0, capBlock hcs0ld]
        exact List.mem_append_left _ (List.mem_cons_self _ _)
      refine ⟨⟨(((w0 :: wr).map String.data).map pyCapitalize).flatten⟩, ?_, ?_⟩
      · rw [renderStyle_pascal, map_pyCap_data]
      · rw [extract_blocks hblocksAll (by simp) hlet']
        exact congrArg Except.ok (map_lower_blocks hldw (by
          intro w hw
          rw [List.mem_cons] at hw
          rcases hw with rfl | hw
          · exact ⟨c0, cs0, hd0, hc0low⟩
          · exact htl w hw))
    · -- the first word starts with a digit and capitalizes to itself
      have hc0dig : c0.isDigit = true := by
        rcases Bool.or_eq_true_iff.mp hc0ld with h | h
        · exact absurd h hc0low
        · exact h
      have hcapw0 : pyCapitalize w0.data = w0.data := by
        rw [hd0, capBlock hcs0ld, toUpper_of_digit hc0dig]
      have hflat : (((w0 :: wr).map String.data).map pyCapitalize).flatten
          = w0.data ++ ((wr.map String.data).map pyCapitalize).flatten := by
        rw [List.map_cons, List.map_cons, List.flatten_cons, hcapw0]
      have hlet' : (w0.data ++ (((wr.map String.data).map pyCapitalize)).flatten).any
          Char.isAlpha = true := by
        rw [List.any_eq_true]
        cases wr with
        | nil =>
          obtain ⟨w, hw, a, haw, halpha⟩ := hlet
          rw [List.mem_singleton] at hw
          subst hw
          exact ⟨a, List.mem_append_left _ haw, halpha⟩
        | cons v vr =>
          obtain ⟨c, cs, hdv, hlow⟩ := htl v (List.mem_cons_self v vr)
          refine ⟨c.toUpper, ?_, alpha_of_upper (isUpper_toUpper_of_lower hlow)⟩
          apply List.mem_append_right
          rw [List.map_cons, List.map_cons, List.flatten_cons, hdv,
            capBlock (by
              intro a ha
              exact hldr v (List.mem_cons_self v vr) a (by
                rw [hdv]
                exact List.mem_cons_of_mem c ha))]
          exact List.mem_append_left _ (List.mem_cons_self _ _)
      refine ⟨⟨(((w0 :: wr).map String.data).map pyCapitalize).flatten⟩, ?_, ?_⟩
      · rw [renderStyle_pascal, map_pyCap_data]
      · rw [show (⟨(((w0 :: wr).map String.data).map pyCapitalize).flatten⟩ : String)
            = (⟨w0.data ++ ((wr.map String.data).map pyCapitalize).flatten⟩ : String)
          from congrArg String.mk hflat]
        rw [extract_camel_like hw0ne hw0ld hblocks hlet']
        rw [List.map_cons, map_lower_blocks hldr htl, map_toLower_of_lowerDigit hw0ld]

/-- C8 witness: the round-trip at `"my-repo-name"` through camelCase. -/
theorem C8_theorem_witness :
    extract_words "my-repo-name" = .ok ["my", "repo", "name"]
      ∧ "camelCase" ∈ CASE_STYLES
      ∧ ∃ s : String,
          convert_case (.words ["my", "repo", "name"]) "camelCase" = .ok (some s)
          ∧ extract_words s = .ok ["my", "repo", "name"] :=
  ⟨by decide, by decide,
    C8_theorem "my-repo-name" ["my", "repo", "name"] "camelCase" (by decide) (by decide)
      (by decide)
      (by
        intro w hw
        rcases List.mem_cons.mp hw with rfl | hw
        · exact ⟨'r', ['e', 'p', 'o'], rfl, by decide⟩
        · rcases List.mem_cons.mp hw with rfl | hw
          · exact ⟨'n', ['a', 'm', 'e'], rfl, by decide⟩
          · exact absurd hw (List.not_mem_nil w))
      ⟨"my", by decide, 'm', by decide, by decide⟩ (by decide)⟩

/-- C9 counterexample: `get_suggested_name("a--b-c", "kebab-case")`
tokenizes to 4 words (one of them empty) and the initialism merge raises
an uncaught `IndexError` — an error outside the claim's closed taxonomy
is reachable for a name with a letter and a supported style. -/
theorem C9_counterexample :
    get_suggested_name "a--b-c" "kebab-case" = .error .indexError := by decide

/-- C9 (amended): `get_suggested_name` fully succeeds for a supported
style whenever the tokenization yields at most 3 words or no empty word
(consecutive separators with more than 3 segments are the one uncovered
case, where the merge's `w[0]` raises `IndexError`). -/
theorem C9_theorem (name style : String) (ws : List String)
    (hex : extract_words name = .ok ws)
    (hok : ws.length ≤ 3 ∨ ∀ w ∈ ws, w.data ≠ [])
    (hst : style ∈ CASE_STYLES) :
    ∃ s : String, get_suggested_name name style = .ok (some s) := by
  have hne := extract_words_ne_nil hex
  rw [get_suggested_name, convert_case_name_eq hex]
  by_cases hlen : ws.length > 3
  · have hw : ∀ w ∈ ws, w.data ≠ [] := by
      rcases hok with h | h
      · exact absurd hlen (Nat.not_lt.mpr h)
      · exact h
    rw [convert_case_words_merge hlen (firstChars_ok hw)]
    exact renderStyle_known_ok hst (by simp)
  · rw [convert_case_words_small hlen]
    exact renderStyle_known_ok hst hne

/-- C9 witness at `"my-repo"` in kebab-case. -/
theorem C9_theorem_witness :
    extract_words "my-repo" = .ok ["my", "repo"]
      ∧ "kebab-case" ∈ CASE_STYLES
      ∧ ∃ s, get_suggested_name "my-repo" "kebab-case" = .ok (some s) :=
  ⟨by decide, by decide,
    C9_theorem "my-repo" "kebab-case" ["my", "repo"] (by decide)
      (Or.inl (by decide)) (by decide)⟩

/-- C10 counterexample: `"1234"` contains no letter but it *matches* the
built-in kebab-case pattern `^[a-z0-9]+(-[a-z0-9]+)*$`, so
`check("1234", "kebab-case")` returns the empty issue list instead of
propagating the tokenizer's `ValueError` claimed for it. -/
theorem C10_counterexample : check "1234" "kebab-case" = .ok [] := by decide

/-- C10 (amended): for every style with a known pattern and every name
with no ASCII letter that does fail the pattern (e.g. `""` under
kebab-case, or `"1234"` under snake_case), `check` does not return an
issue list but propagates the tokenizer's `ValueError` raised while
re-tokenizing the failing name. -/
theorem C10_theorem (name case_name : String) (pat : String → Bool)
    (hp : get_pattern case_name = some pat) (hfail : pat name = false)
    (hnol : name.data.any Char.isAlpha = false) :
    check name case_name = .error (.valueError (letterErrMsg name)) := by
  rw [check_mismatch_struct hp hfail, extract_words_err hnol, pybind_error]

/-- C10 witness at `check("", "kebab-case")`. -/
theorem C10_theorem_witness :
    get_pattern "kebab-case" = some kebabM ∧ kebabM "" = false
      ∧ ("" : String).data.any Char.isAlpha = false
      ∧ check "" "kebab-case" = .error (.valueError (letterErrMsg "")) :=
  ⟨rfl, by decide, by decide,
    C10_theorem "" "kebab-case" kebabM rfl (by decide) (by decide)⟩

/-- Fidelity check of the embedded tokenizer against the specification's
worked example `extract_words("OpenPDFStudio")`. -/
theorem sanity_extract_openpdfstudio :
    extract_words "OpenPDFStudio" = .ok ["open", "pdf", "studio"] := by decide

/-- Fidelity check of the acronym lookahead against the specification's
worked example `"HTTPServer"`. -/
theorem sanity_extract_httpserver :
    extract_words "HTTPServer" = .ok ["http", "server"] := by decide

/-- Fidelity check of the two delimiter examples of the specification. -/
theorem sanity_extract_delimiters :
    extract_words "my-repo-name" = .ok ["my", "repo", "name"]
      ∧ extract_words "my_repo_name" = .ok ["my", "repo", "name"] := by decide

/-- Fidelity check of the tokenizer's precondition on the specification's
examples: no-letter inputs raise `ValueError`. -/
theorem sanity_extract_no_letter :
    extract_words "" = .error (.valueError (letterErrMsg ""))
      ∧ extract_words "1234" = .error (.valueError (letterErrMsg "1234")) := by decide

/-- Fidelity check of the `$` anchor semantics: exactly one trailing
newline is forgiven by `re.match` of the anchored patterns — `"ab"` and
`"ab" ++ "\n"` are accepted, `"ab" ++ "\n\n"` and `"a" ++ "\n" ++ "b"`
are not. -/
theorem sanity_dollar_newline :
    kebabM "ab" = true
      ∧ kebabM (⟨['a', 'b', nl]⟩ : String) = true
      ∧ kebabS (⟨['a', 'b', nl]⟩ : String) = false
      ∧ kebabM (⟨['a', 'b', nl, nl]⟩ : String) = false
      ∧ kebabM (⟨['a', nl, 'b']⟩ : String) = false := by decide
